import Mathlib

/-
  Verification of the SMC (Symbol Modifier for COFF) core: the ordered hash
  dictionary, the append buffer and the symbol-table codec, shallowly embedded
  from src/smclib.c and src/smc.c.

  Conventions of the embedding:
  * C strings are NUL-free byte sequences, modelled as `List Nat` (macro
    `ByteStr`); the terminating NUL is implicit and re-added where the code
    writes it.
  * `size_t` arithmetic is `Nat` reduced mod `2 ^ 64` where overflow matters
    (the hash accumulator); slot indices are always reduced by the power-of-two
    mask, so they stay below the table size.
  * Allocation is assumed to succeed for non-NULL inputs; `strdup(NULL)`
    deterministically returns NULL (as in the Windows CRT the tool targets),
    which `check_ptr` turns into the allocation-failure abort.
  * `error(...)`/`longjmp` aborts are the `.err msg` outcome; a C loop that
    would never terminate (possible only when the slot table has no empty
    slot, which the load-factor invariant rules out) is the `.hang` outcome.
-/

namespace SMC

/-- Outcome of running a fragment of the C program: a normal result, an
abort through the `error`/`longjmp` channel carrying the printed message, or
divergence of a C loop (used to totalise the unbounded probe loops). -/
inductive CResult (α : Type) where
  | ok : α → CResult α
  | err : String → CResult α
  | hang : CResult α
deriving DecidableEq

/-- A C string: the bytes strictly before the terminating NUL. -/
abbrev ByteStr := List Nat

/-- Width of `size_t` on the 64-bit target. -/
def SIZE_T_MOD : Nat := 2 ^ 64

/-- One step of the hash accumulator of `hash_key` in smclib.c:
`h += (h << 5) + (h >> 27) + *k` on `size_t`. -/
def hashStep (h b : Nat) : Nat := (h + h * 32 + h / 2 ^ 27 + b) % SIZE_T_MOD

/-- `hash_key` from smclib.c: `h = 1; while (*k) h += (h<<5) + (h>>27) + *k++;`. -/
def hash_key (k : ByteStr) : Nat := k.foldl hashStep 1

/-- `entry_t` from smclib.h. `val = none` models a NULL value pointer. -/
structure entry_t where
  hash : Nat
  key : ByteStr
  val : Option ByteStr
deriving DecidableEq

/-- `dict_t` from smclib.h. `entries` is the used prefix of the entries
array (so `dict->count = entries.length`); `indices` is the slot table,
`none` modelling `IDX_EMPTY` (`(size_t)-1`). -/
structure dict_t where
  entries : List entry_t
  indices : Nat → Option Nat
  size_bits : Nat

/-- `DICT_INIT_BITS` from smclib.c. -/
def DICT_INIT_BITS : Nat := 5

/-- `DICT_SIZE` from smclib.c. -/
def DICT_SIZE (d : dict_t) : Nat := 2 ^ d.size_bits

/-- Writing one cell of the slot table (`dict->indices[i] = v`). -/
def updSlot (tbl : Nat → Option Nat) (i : Nat) (v : Option Nat) : Nat → Option Nat :=
  fun j => if j = i then v else tbl j

/-- `NEXT_INDEX` from smclib.c: `((i * 5) + 1) & DICT_MASK`; the mask by
`2 ^ bits - 1` is the reduction mod `2 ^ bits`. -/
def nxt (bits i : Nat) : Nat := (i * 5 + 1) % 2 ^ bits

/-- `n`-fold iteration of the probe step `nxt`, the probe sequence. -/
def iterN (bits : Nat) : Nat → Nat → Nat
  | 0, i => i
  | n + 1, i => nxt bits (iterN bits n i)

/-- `new_dict` from smclib.c: 32 empty slots, no entries. -/
def new_dict : dict_t :=
  { entries := [], indices := fun _ => none, size_bits := DICT_INIT_BITS }

/-- Result of the probe loop shared by `dict_add`:
`while ((e = GET_ENTRY(dict, i)) != IDX_EMPTY) { ... i = NEXT_INDEX(dict, i); }`.
`found e i ent` is a hit on entry index `e` in slot `i` (the `IS_ENTRY`
test passed), `empty i` is the first empty slot, and `stuck` totalises the
two behaviours the C code cannot recover from: the loop running forever
(no empty slot in the cycle) and reading `dict->entries[e]` out of range.
The fuel is the table size; by the full period of the probe sequence the
loop visits every slot within that many steps, so `stuck` is unreachable
whenever an empty slot exists and the slot table is valid. -/
inductive ProbeOut where
  | found : Nat → Nat → entry_t → ProbeOut
  | empty : Nat → ProbeOut
  | stuck : ProbeOut
deriving DecidableEq

/-- The probe loop of `dict_add` (smclib.c), with `IS_ENTRY`
(`entry->hash == hash && strcmp(entry->key, key) == 0`) inlined. -/
def probe (d : dict_t) (h : Nat) (k : ByteStr) : Nat → Nat → ProbeOut
  | 0, _ => .stuck
  | fuel + 1, i =>
    match d.indices i with
    | none => .empty i
    | some e =>
      match d.entries[e]? with
      | none => .stuck
      | some ent =>
        if ent.hash = h ∧ ent.key = k then .found e i ent
        else probe d h k fuel (nxt d.size_bits i)

/-- The inner placement loop of `expand_dict` (smclib.c):
`while (GET_ENTRY(dict, i) != IDX_EMPTY) i = NEXT_INDEX(dict, i);`
returning the first empty slot on the probe sequence, fuelled like `probe`. -/
def findEmpty (bits : Nat) (tbl : Nat → Option Nat) : Nat → Nat → Option Nat
  | 0, _ => none
  | fuel + 1, i =>
    match tbl i with
    | none => some i
    | some _ => findEmpty bits tbl fuel (nxt bits i)

/-- The re-insertion loop of `expand_dict`: for each entry `e` in order,
probe from `hash & (size - 1)` in the fresh table and store `e` in the
first empty slot. `e0` is the index of the first entry still to place. -/
def reinsertAll (bits : Nat) : List entry_t → Nat → (Nat → Option Nat) → Option (Nat → Option Nat)
  | [], _, tbl => some tbl
  | ent :: rest, e0, tbl =>
    match findEmpty bits tbl (2 ^ bits) (ent.hash % 2 ^ bits) with
    | none => none
    | some i => reinsertAll bits rest (e0 + 1) (updSlot tbl i (some e0))

/-- `expand_dict` from smclib.c: increment `size_bits`, clear the slot table
(`memset(dict->indices, -1, ...)`) and re-insert every existing entry from
its stored hash. The entries array itself is only reallocated (contents
preserved), never rehashed. `none` models the (unreachable) divergence of a
placement loop. -/
def expand_dict (d : dict_t) : Option dict_t :=
  match reinsertAll (d.size_bits + 1) d.entries 0 (fun _ => none) with
  | none => none
  | some tbl => some { entries := d.entries, indices := tbl, size_bits := d.size_bits + 1 }

/-- `dict_add` from smclib.c (the `!dict` guard is dropped: the embedding has
no NULL dictionaries). On a hit, `entry->val = strdup(val)` runs
unconditionally; with `val = NULL` the Windows CRT `strdup` returns NULL and
`check_ptr` aborts with the allocation-failure message. On a miss with
non-NULL `val` the function returns false without touching the dictionary;
on a miss with NULL `val` a fresh entry is appended and the slot recorded,
growing the table when `count > DICT_SIZE * 2 / 3`. -/
def dict_add (d : dict_t) (key : ByteStr) (val : Option ByteStr) : CResult (Bool × dict_t) :=
  let hash := hash_key key
  match probe d hash key (DICT_SIZE d) (hash % DICT_SIZE d) with
  | .found e _i ent =>
    match val with
    | none => .err "Memory allocation failed."
    | some v => .ok (true, { d with entries := d.entries.set e ⟨ent.hash, ent.key, some v⟩ })
  | .empty i =>
    match val with
    | some _ => .ok (false, d)
    | none =>
      let d' : dict_t :=
        { d with indices := updSlot d.indices i (some d.entries.length),
                 entries := d.entries ++ [⟨hash, key, none⟩] }
      if d'.entries.length > DICT_SIZE d' * 2 / 3 then
        match expand_dict d' with
        | none => .hang
        | some d'' => .ok (true, d'')
      else .ok (true, d')
  | .stuck => .hang

/-- Lookup by the probe loop of `dict_add` (the search the C code performs
before deciding between update and insert): the entry index and entry found
for `key`, or `none` when the probe hits an empty slot first. -/
def dict_find (d : dict_t) (key : ByteStr) : CResult (Option (Nat × entry_t)) :=
  match probe d (hash_key key) key (DICT_SIZE d) (hash_key key % DICT_SIZE d) with
  | .found e _i ent => .ok (some (e, ent))
  | .empty _ => .ok none
  | .stuck => .hang

/-- Bytes rendered as a `String` for the `error` format `%s`. -/
def byteStrToString (s : ByteStr) : String := String.mk (s.map Char.ofNat)

/-- `change_symbol_name` from smc.c:
`if (!dict_add(dict, old, new)) error("Cannot find symbol \x27%s\x27.", old);`. -/
def change_symbol_name (d : dict_t) (old new : ByteStr) : CResult dict_t :=
  match dict_add d old (some new) with
  | .ok (true, d') => .ok d'
  | .ok (false, _) => .err ("Cannot find symbol \x27" ++ byteStrToString old ++ "\x27.")
  | .err m => .err m
  | .hang => .hang

/- Append buffer (smclib.c). -/

/-- `buf_t` from smclib.h. `data` is the logical content: the first `cnt`
bytes of the allocation (bytes past `cnt` are uninitialised in C and carry
no information). -/
structure buf_t where
  size : Nat
  cnt : Nat
  data : List Nat
deriving DecidableEq

/-- `BUF_INIT_SIZE` from smclib.c. -/
def BUF_INIT_SIZE : Nat := 256

/-- `new_buf` from smclib.c: `size = 256`, `cnt = 0`. -/
def new_buf : buf_t := { size := BUF_INIT_SIZE, cnt := 0, data := [] }

/-- The capacity loop of `buf_cat`: `while (cnt + len > size) size <<= 1`.
The `size = 0` disjunct totalises the loop, which in C would never
terminate from a zero size; `new_buf` starts at 256 and doubling keeps the
size positive, so that case is unreachable. -/
def growSize (size need : Nat) : Nat :=
  if h : need ≤ size ∨ size = 0 then size else growSize (size * 2) need
termination_by need - size
decreasing_by omega

/-- `buf_cat` from smclib.c: grow by doubling until `cnt + len ≤ size`, copy
the string together with its NUL terminator at offset `cnt`, return the old
`cnt` as the offset. -/
def buf_cat (b : buf_t) (s : ByteStr) : Nat × buf_t :=
  let len := s.length + 1
  (b.cnt, { size := growSize b.size (b.cnt + len), cnt := b.cnt + len,
            data := b.data ++ s ++ [0] })

/- Symbol table codec (smc.c). -/

/-- `IMAGE_SIZEOF_SYMBOL`: an `IMAGE_SYMBOL` record occupies 18 bytes. -/
def IMAGE_SIZEOF_SYMBOL : Nat := 18

/-- A symbol record as the rewrite loop of `main` views it: the 8-byte name
union `N` as raw bytes, and `NumberOfAuxSymbols`. The remaining fields
(`Value`, `SectionNumber`, `Type`, `StorageClass`) are neither read nor
written by the re-emission loop and are omitted; array slots occupied by
auxiliary records are carried in the same type and passed through. -/
structure IMAGE_SYMBOL where
  nameBytes : List Nat
  numAux : Nat
deriving DecidableEq

/-- `strncpy(dst, s, 8)` into the 8-byte inline name field: at most 8 bytes
of `s`, NUL-padded to exactly 8 bytes; no terminator when `s` fills the
field. -/
def strncpy8 (s : ByteStr) : List Nat := s.take 8 ++ List.replicate (8 - s.length) 0

/-- A `DWORD` stored little-endian, as the union writes `N.Name.Short` and
`N.Name.Long` over the name bytes. -/
def le32 (n : Nat) : List Nat :=
  [n % 256, n / 256 % 256, n / 2 ^ 16 % 256, n / 2 ^ 24 % 256]

/-- `entry->val ?: entry->key` — the effective (post-rename) name. -/
def eff_name (ent : entry_t) : ByteStr := ent.val.getD ent.key

/-- The body of the re-emission loop of `main` for one dictionary entry and
the primary record the cursor points at:
if `strlen(s) <= 8` then `strncpy(sym->N.ShortName, s, 8)`, else
`offset = buf_cat(buf, s); sym->N.Name.Short = 0; sym->N.Name.Long = offset`. -/
def emit_step (ent : entry_t) (s : IMAGE_SYMBOL) (b : buf_t) : IMAGE_SYMBOL × buf_t :=
  let name := eff_name ent
  if name.length ≤ 8 then
    ({ s with nameBytes := strncpy8 name }, b)
  else
    let r := buf_cat b name
    ({ s with nameBytes := le32 0 ++ le32 r.1 }, r.2)

/-- The re-emission loop of `main`: entries in insertion order, the record
cursor advancing by `sym->NumberOfAuxSymbols + 1` past each rewritten
primary record (auxiliary records are passed through untouched). `none`
models the cursor running past the end of the symbol array, which the C
code would do if the dictionary held more entries than the array holds
primary records. -/
def emit : List entry_t → List IMAGE_SYMBOL → buf_t → Option (List IMAGE_SYMBOL × buf_t)
  | [], syms, b => some (syms, b)
  | _ :: _, [], _ => none
  | ent :: es, s :: rest, b =>
    let r := emit_step ent s b
    match emit es (rest.drop s.numAux) r.2 with
    | none => none
    | some (out, bF) => some (r.1 :: (rest.take s.numAux ++ out), bF)

/-- The primary records of a symbol array in traversal order: the loops of
`get_symbol_names` and of the re-emission both step
`i += NumberOfAuxSymbols + 1`, skipping each primary record's auxiliary
records. -/
def primaries : List IMAGE_SYMBOL → List IMAGE_SYMBOL
  | [] => []
  | s :: rest => s :: primaries (rest.drop s.numAux)
termination_by l => l.length
decreasing_by simp only [List.length_drop, List.length_cons]; omega

/-- Specification-side reference for the order-preservation claim: the
lockstep pairing in which entry `e` of the iteration order is re-encoded
onto exactly the `e`-th primary record, the string-table buffer threading
through from left to right. Compared against `emit` (the code), which walks
the raw array with a skipping cursor. -/
def emitPrimSpec : List entry_t → List IMAGE_SYMBOL → buf_t → List IMAGE_SYMBOL × buf_t
  | [], ps, b => (ps, b)
  | _ :: _, [], b => ([], b)
  | ent :: es, p :: ps, b =>
    let r := emit_step ent p b
    let rec' := emitPrimSpec es ps r.2
    (r.1 :: rec'.1, rec'.2)

/-- One iteration of the seeding loop of `get_symbol_names` (smc.c):
`dict_add(dict, s, NULL)` on the running dictionary; `error` aborts and
divergence propagate. -/
def seed_step (acc : CResult dict_t) (k : ByteStr) : CResult dict_t :=
  match acc with
  | .ok d =>
    match dict_add d k none with
    | .ok p => .ok p.2
    | .err m => .err m
    | .hang => .hang
  | r => r

/-- The seeding pass of `get_symbol_names` (smc.c), abstracted over the
already-decoded name of each primary record: `dict_add(dict, s, NULL)` for
each name in traversal order, starting from `new_dict`. -/
def seed_dict (names : List ByteStr) : CResult dict_t :=
  names.foldl seed_step (.ok new_dict)

/-- The state of `buf` at the start of the re-emission in `main`:
`buf = new_buf(); buf->cnt = 4;` — the first four bytes are skipped for the
string-table length header (their contents stay uninitialised until the
final header write; modelled as zeros). -/
def strtab_init : buf_t := { new_buf with cnt := 4, data := List.replicate 4 0 }

/-- The header write after the loop in `main`:
`*(DWORD*)buf->buf = buf->cnt;` — the total length, truncated to a DWORD,
stored little-endian over the first four bytes. -/
def write_strtab_len (b : buf_t) : buf_t := { b with data := le32 b.cnt ++ b.data.drop 4 }

/- Pass-1 name decoding on the raw bytes of the file
(`get_symbol_names`, smc.c). -/

/-- A DWORD read little-endian at byte offset `off` of the loaded image. -/
def le32at (mem : List Nat) (off : Nat) : Nat :=
  mem.getD off 0 + 256 * mem.getD (off + 1) 0 + 2 ^ 16 * mem.getD (off + 2) 0 +
    2 ^ 24 * mem.getD (off + 3) 0

/-- The C string starting at byte offset `off`: bytes up to the first NUL.
The C code reads through memory with no bound; the model stops at the end
of the loaded image. -/
def cstring (mem : List Nat) (off : Nat) : ByteStr :=
  (mem.drop off).takeWhile (fun b => b ≠ 0)

/-- The name of record `i` as `get_symbol_names` decodes it, over the image
region `mem` that starts at the symbol table (the string table follows at
`IMAGE_SIZEOF_SYMBOL * nsym`):
`sym->N.Name.Short ? sym->N.ShortName : strtab + sym->N.Name.Long`.
In the inline case the C code hands the bare field pointer to `dict_add`,
whose `strlen`/`strcpy`-family reads continue past the 8-byte field until
the first NUL anywhere in memory. -/
def decode_name (mem : List Nat) (nsym i : Nat) : ByteStr :=
  let base := IMAGE_SIZEOF_SYMBOL * i
  if le32at mem base ≠ 0 then cstring mem base
  else cstring mem (IMAGE_SIZEOF_SYMBOL * nsym + le32at mem (base + 4))

/- Full period of the probe sequence `i ↦ (5*i + 1) mod 2^bits`. -/

/-- Partial sums of the geometric series of ratio 5:
`geo5 k = 1 + 5 + ... + 5^(k-1)`, satisfying `iterN bits k s ≡ 5^k s + geo5 k`. -/
def geo5 : Nat → Nat
  | 0 => 0
  | k + 1 => 5 * geo5 k + 1

lemma pow5_eq (k : Nat) : 5 ^ k = 4 * geo5 k + 1 := by
  induction k with
  | zero => rfl
  | succ k ih => rw [pow_succ, ih]; simp [geo5]; ring

lemma geo5_add (a b : Nat) : geo5 (a + b) = geo5 a + 5 ^ a * geo5 b := by
  induction b with
  | zero => simp [geo5]
  | succ b ih =>
    show geo5 ((a + b) + 1) = geo5 a + 5 ^ a * geo5 (b + 1)
    simp only [geo5, ih, pow5_eq a]
    ring

lemma geo5_mod2 (k : Nat) : geo5 k % 2 = k % 2 := by
  induction k with
  | zero => rfl
  | succ k ih => simp only [geo5]; omega

lemma pow5_mod4 (k : Nat) : 5 ^ k % 4 = 1 := by
  simp [Nat.pow_mod]

lemma geo5_two_mul (m : Nat) : geo5 (2 * m) = geo5 m * (1 + 5 ^ m) := by
  have h2 : 2 * m = m + m := by ring
  rw [h2, geo5_add]; ring

lemma geo5_dvd_iff (bits k : Nat) : 2 ^ bits ∣ geo5 k ↔ 2 ^ bits ∣ k := by
  induction bits generalizing k with
  | zero => simp
  | succ b ih =>
    have hpow : (2 : Nat) ^ (b + 1) = 2 * 2 ^ b := by ring
    constructor
    · intro h
      have h2 : 2 ∣ geo5 k := dvd_trans ⟨2 ^ b, hpow⟩ h
      have hk2 : 2 ∣ k := by
        have hm := geo5_mod2 k
        omega
      obtain ⟨m, rfl⟩ := hk2
      rw [geo5_two_mul] at h
      have hmod : (1 + 5 ^ m) % 4 = 2 := by
        have := pow5_mod4 m
        omega
      obtain ⟨u, hu⟩ : ∃ u, 1 + 5 ^ m = 2 * u := ⟨(1 + 5 ^ m) / 2, by omega⟩
      have hodd : ¬ 2 ∣ u := by omega
      rw [hu] at h
      have h' : 2 ^ b ∣ geo5 m * u := by
        have he : geo5 m * (2 * u) = 2 * (geo5 m * u) := by ring
        rw [hpow, he] at h
        exact (Nat.mul_dvd_mul_iff_left (by omega : 0 < 2)).mp h
      have hcop : Nat.Coprime (2 ^ b) u :=
        Nat.Coprime.pow_left _ ((Nat.prime_two.coprime_iff_not_dvd).mpr hodd)
      have hm : 2 ^ b ∣ m := (ih m).mp (hcop.dvd_of_dvd_mul_right h')
      obtain ⟨c, rfl⟩ := hm
      exact ⟨c, by rw [hpow]; ring⟩
    · intro h
      have hk2 : 2 ∣ k := dvd_trans ⟨2 ^ b, hpow⟩ h
      obtain ⟨m, rfl⟩ := hk2
      have hb : 2 ^ b ∣ m := by
        obtain ⟨c, hc⟩ := h
        rw [hpow, mul_assoc] at hc
        exact ⟨c, by omega⟩
      have hmod : (1 + 5 ^ m) % 4 = 2 := by
        have := pow5_mod4 m
        omega
      have hpow2 : (2 : Nat) ^ (b + 1) = 2 ^ b * 2 := by ring
      rw [geo5_two_mul, hpow2]
      exact Nat.mul_dvd_mul ((ih m).mpr hb) (by omega)

lemma pow2_pos (bits : Nat) : 0 < 2 ^ bits := Nat.pos_pow_of_pos bits (by omega)

lemma nxt_lt (bits i : Nat) : nxt bits i < 2 ^ bits := Nat.mod_lt _ (pow2_pos bits)

lemma iterN_lt (bits n : Nat) {i : Nat} (h : i < 2 ^ bits) : iterN bits n i < 2 ^ bits := by
  cases n with
  | zero => exact h
  | succ n => exact nxt_lt bits _

lemma iterN_add (bits a b i : Nat) :
    iterN bits (a + b) i = iterN bits a (iterN bits b i) := by
  induction a with
  | zero => simp [iterN]
  | succ a ih =>
    have hs : a + 1 + b = (a + b) + 1 := by omega
    rw [hs]
    show nxt bits (iterN bits (a + b) i) = nxt bits (iterN bits a (iterN bits b i))
    rw [ih]

lemma iterN_shift (bits n i : Nat) :
    iterN bits n (nxt bits i) = iterN bits (n + 1) i := by
  induction n with
  | zero => rfl
  | succ n ih =>
    show nxt bits (iterN bits n (nxt bits i)) = nxt bits (iterN bits (n + 1) i)
    rw [ih]

lemma iterN_modeq (bits k s : Nat) :
    iterN bits k s ≡ 5 ^ k * s + geo5 k [MOD 2 ^ bits] := by
  induction k with
  | zero => simp [iterN, geo5, Nat.ModEq.refl]
  | succ k ih =>
    show (iterN bits k s * 5 + 1) % 2 ^ bits ≡ 5 ^ (k + 1) * s + geo5 (k + 1) [MOD 2 ^ bits]
    calc (iterN bits k s * 5 + 1) % 2 ^ bits
        ≡ iterN bits k s * 5 + 1 [MOD 2 ^ bits] := Nat.mod_modEq _ _
      _ ≡ (5 ^ k * s + geo5 k) * 5 + 1 [MOD 2 ^ bits] := (ih.mul_right 5).add_right 1
      _ = 5 ^ (k + 1) * s + geo5 (k + 1) := by simp only [geo5, pow_succ]; ring

lemma modeq_eq_of_lt {n a b : Nat} (h : a ≡ b [MOD n]) (ha : a < n) (hb : b < n) : a = b := by
  have h2 := h
  unfold Nat.ModEq at h2
  rwa [Nat.mod_eq_of_lt ha, Nat.mod_eq_of_lt hb] at h2

lemma iterN_fixed_iff (bits k : Nat) {s : Nat} (hs : s < 2 ^ bits) :
    iterN bits k s = s ↔ 2 ^ bits ∣ k := by
  have he : 5 ^ k * s + geo5 k = s + geo5 k * (4 * s + 1) := by rw [pow5_eq]; ring
  constructor
  · intro h
    have h1 : s + geo5 k * (4 * s + 1) ≡ s + 0 [MOD 2 ^ bits] := by
      have hmq := (iterN_modeq bits k s).symm
      rw [h, he] at hmq
      simpa using hmq
    have h2 : geo5 k * (4 * s + 1) ≡ 0 [MOD 2 ^ bits] := Nat.ModEq.add_left_cancel' s h1
    have h3 : 2 ^ bits ∣ geo5 k * (4 * s + 1) := (Nat.modEq_zero_iff_dvd).mp h2
    have hcop : Nat.Coprime (2 ^ bits) (4 * s + 1) :=
      Nat.Coprime.pow_left _ ((Nat.prime_two.coprime_iff_not_dvd).mpr (by omega))
    exact (geo5_dvd_iff bits k).mp (hcop.dvd_of_dvd_mul_right h3)
  · intro h
    have hdvd : 2 ^ bits ∣ geo5 k := (geo5_dvd_iff bits k).mpr h
    have hmod : iterN bits k s ≡ s [MOD 2 ^ bits] := by
      refine (iterN_modeq bits k s).trans ?_
      rw [he]
      have hz : geo5 k * (4 * s + 1) ≡ 0 [MOD 2 ^ bits] :=
        (Nat.modEq_zero_iff_dvd).mpr (hdvd.mul_right _)
      simpa using Nat.ModEq.add_left s hz
    exact modeq_eq_of_lt hmod (iterN_lt bits k hs) hs

lemma iterN_inj_of_le (bits : Nat) {s a b : Nat} (hs : s < 2 ^ bits) (hb : b < 2 ^ bits)
    (hab : a ≤ b) (h : iterN bits a s = iterN bits b s) : a = b := by
  have hsplit : b = (b - a) + a := by omega
  have h2 : iterN bits (b - a) (iterN bits a s) = iterN bits a s := by
    rw [← iterN_add, ← hsplit, ← h]
  have hlt : iterN bits a s < 2 ^ bits := iterN_lt bits a hs
  have hdvd := (iterN_fixed_iff bits (b - a) hlt).mp h2
  have : b - a = 0 := by
    rcases Nat.eq_zero_or_pos (b - a) with h0 | hpos
    · exact h0
    · exact absurd (Nat.le_of_dvd hpos hdvd) (by omega)
  omega

lemma iterN_inj (bits : Nat) {s a b : Nat} (hs : s < 2 ^ bits) (ha : a < 2 ^ bits)
    (hb : b < 2 ^ bits) (h : iterN bits a s = iterN bits b s) : a = b := by
  rcases le_total a b with hle | hle
  · exact iterN_inj_of_le bits hs hb hle h
  · exact (iterN_inj_of_le bits hs ha hle h.symm).symm

lemma iterN_surj (bits : Nat) {s : Nat} (hs : s < 2 ^ bits) {j : Nat} (hj : j < 2 ^ bits) :
    ∃ k < 2 ^ bits, iterN bits k s = j := by
  let f : Fin (2 ^ bits) → Fin (2 ^ bits) := fun k => ⟨iterN bits k.1 s, iterN_lt bits k.1 hs⟩
  have hinj : Function.Injective f := by
    intro x y hxy
    exact Fin.ext (iterN_inj bits hs x.2 y.2 (congrArg Fin.val hxy))
  have hsurj : Function.Surjective f := Finite.injective_iff_surjective.mp hinj
  obtain ⟨k, hk⟩ := hsurj ⟨j, hj⟩
  exact ⟨k.1, k.2, congrArg Fin.val hk⟩

/- The dictionary invariant. -/

instance decForallOptionSome {α : Type} (o : Option α) (p : α → Prop) [DecidablePred p] :
    Decidable (∀ a, o = some a → p a) :=
  match o with
  | none => isTrue (fun _ h => nomatch h)
  | some x =>
    if hx : p x then isTrue (fun _ h => (Option.some.inj h) ▸ hx)
    else isFalse (fun H => hx (H x rfl))

lemma DICT_SIZE_def (d : dict_t) : DICT_SIZE d = 2 ^ d.size_bits := rfl

/-- Every occupied slot stores a valid entry index. -/
def slotsValid (d : dict_t) : Prop :=
  ∀ i < DICT_SIZE d, ∀ e, d.indices i = some e → e < d.entries.length

/-- Entry index `e` is reachable in slot table `tbl`: probing from
`h mod 2^bits`, some position within one full period holds `e` and every
earlier position is occupied. This is what makes the probe loop of
`dict_add` find every stored entry. -/
def ReachS (bits : Nat) (tbl : Nat → Option Nat) (h e : Nat) : Prop :=
  ∃ n < 2 ^ bits, (∀ m < n, (tbl (iterN bits m (h % 2 ^ bits))).isSome = true) ∧
    tbl (iterN bits n (h % 2 ^ bits)) = some e

/-- Every entry is reachable from its stored hash. -/
def reachAll (d : dict_t) : Prop :=
  ∀ e < d.entries.length, ∀ ent, d.entries[e]? = some ent →
    ReachS d.size_bits d.indices ent.hash e

/-- Stored hashes are the hash of the stored key. -/
def hashesOK (d : dict_t) : Prop := ∀ ent ∈ d.entries, ent.hash = hash_key ent.key

/-- Keys are pairwise distinct. -/
def keysNodup (d : dict_t) : Prop := (d.entries.map entry_t.key).Nodup

/-- Number of occupied slots of a table. -/
def filled (bits : Nat) (tbl : Nat → Option Nat) : Nat :=
  ((Finset.range (2 ^ bits)).filter (fun i => (tbl i).isSome = true)).card

/-- The dictionary invariant: established by `new_dict` and preserved by
`dict_add`; the load-factor bound `count ≤ size * 2 / 3` is the guarantee
that an empty slot always exists and every probe loop terminates. -/
def DictInv (d : dict_t) : Prop :=
  DICT_INIT_BITS ≤ d.size_bits ∧ slotsValid d ∧ reachAll d ∧ hashesOK d ∧ keysNodup d ∧
    filled d.size_bits d.indices = d.entries.length ∧
    d.entries.length ≤ DICT_SIZE d * 2 / 3

instance decDictInv (d : dict_t) : Decidable (DictInv d) := by
  unfold DictInv slotsValid reachAll hashesOK keysNodup ReachS
  infer_instance

lemma updSlot_self (tbl : Nat → Option Nat) (i : Nat) (v : Option Nat) :
    updSlot tbl i v i = v := by simp [updSlot]

lemma updSlot_other (tbl : Nat → Option Nat) {i j : Nat} (v : Option Nat) (h : j ≠ i) :
    updSlot tbl i v j = tbl j := by simp [updSlot, h]

lemma filled_updSlot {bits : Nat} {tbl : Nat → Option Nat} {i : Nat} (hi : i < 2 ^ bits)
    (hnone : tbl i = none) (v : Nat) :
    filled bits (updSlot tbl i (some v)) = filled bits tbl + 1 := by
  unfold filled
  have hset : (Finset.range (2 ^ bits)).filter (fun j => ((updSlot tbl i (some v)) j).isSome = true)
      = insert i ((Finset.range (2 ^ bits)).filter (fun j => (tbl j).isSome = true)) := by
    ext j
    simp only [Finset.mem_filter, Finset.mem_insert, Finset.mem_range, updSlot]
    by_cases hj : j = i
    · subst hj
      simp [hi]
    · simp [hj]
  rw [hset, Finset.card_insert_of_not_mem]
  simp [Finset.mem_filter, hnone]

lemma exists_empty_of_filled_lt {bits : Nat} {tbl : Nat → Option Nat}
    (h : filled bits tbl < 2 ^ bits) : ∃ j < 2 ^ bits, tbl j = none := by
  by_contra hc
  push_neg at hc
  have hall : (Finset.range (2 ^ bits)).filter (fun j => (tbl j).isSome = true)
      = Finset.range (2 ^ bits) := by
    apply Finset.filter_true_of_mem
    intro j hj
    have hne := hc j (Finset.mem_range.mp hj)
    cases htj : tbl j with
    | none => exact absurd htj hne
    | some v => rfl
  unfold filled at h
  rw [hall, Finset.card_range] at h
  omega

/- Behaviour of the probe loops. -/

lemma probe_ne_stuck {d : dict_t} (hh : Nat) (k : ByteStr) (hsv : slotsValid d) :
    ∀ fuel i0, i0 < DICT_SIZE d →
      (∃ n < fuel, d.indices (iterN d.size_bits n i0) = none) →
      probe d hh k fuel i0 ≠ ProbeOut.stuck := by
  intro fuel
  induction fuel with
  | zero =>
    intro i0 _ hex
    obtain ⟨n, hn, _⟩ := hex
    omega
  | succ f ih =>
    intro i0 hi0 hex
    obtain ⟨n, hn, hnone⟩ := hex
    cases hidx : d.indices i0 with
    | none => simp [probe, hidx]
    | some e =>
      have he : e < d.entries.length := hsv i0 hi0 e hidx
      obtain ⟨ent, hent⟩ : ∃ ent, d.entries[e]? = some ent :=
        ⟨d.entries[e], List.getElem?_eq_getElem he⟩
      by_cases hmt : ent.hash = hh ∧ ent.key = k
      · simp [probe, hidx, hent, hmt]
      · have hstep : probe d hh k (f + 1) i0 = probe d hh k f (nxt d.size_bits i0) := by
          simp [probe, hidx, hent, hmt]
        rw [hstep]
        apply ih (nxt d.size_bits i0) (by rw [DICT_SIZE_def]; exact nxt_lt _ _)
        have hn0 : n ≠ 0 := by
          intro h0
          subst h0
          simp only [iterN] at hnone
          rw [hnone] at hidx
          exact Option.noConfusion hidx
        obtain ⟨n', rfl⟩ : ∃ n', n = n' + 1 := ⟨n - 1, by omega⟩
        refine ⟨n', by omega, ?_⟩
        rw [iterN_shift]
        exact hnone

lemma probe_empty_trace {d : dict_t} {hh : Nat} {k : ByteStr} :
    ∀ fuel i0 i, probe d hh k fuel i0 = ProbeOut.empty i →
      ∃ n < fuel, i = iterN d.size_bits n i0 ∧ d.indices i = none ∧
        ∀ m < n, ∃ e ent, d.indices (iterN d.size_bits m i0) = some e ∧
          d.entries[e]? = some ent ∧ ¬(ent.hash = hh ∧ ent.key = k) := by
  intro fuel
  induction fuel with
  | zero =>
    intro i0 i h
    simp [probe] at h
  | succ f ih =>
    intro i0 i h
    cases hidx : d.indices i0 with
    | none =>
      have hii : i0 = i := by simpa [probe, hidx] using h
      subst hii
      exact ⟨0, by omega, by simp [iterN], hidx, by omega⟩
    | some e =>
      cases hent : d.entries[e]? with
      | none => simp [probe, hidx, hent] at h
      | some ent =>
        by_cases hmt : ent.hash = hh ∧ ent.key = k
        · simp [probe, hidx, hent, hmt] at h
        · have h' : probe d hh k f (nxt d.size_bits i0) = ProbeOut.empty i := by
            simpa [probe, hidx, hent, hmt] using h
          obtain ⟨n, hn, hi, hnone, hpre⟩ := ih _ _ h'
          refine ⟨n + 1, by omega, by rw [← iterN_shift]; exact hi, hnone, ?_⟩
          intro m hmlt
          cases m with
          | zero => exact ⟨e, ent, by simpa [iterN] using hidx, hent, hmt⟩
          | succ m' =>
            have hp := hpre m' (by omega)
            rw [iterN_shift] at hp
            exact hp

lemma probe_found_props {d : dict_t} {hh : Nat} {k : ByteStr} :
    ∀ fuel i0 e i ent, probe d hh k fuel i0 = ProbeOut.found e i ent →
      d.indices i = some e ∧ d.entries[e]? = some ent ∧ ent.hash = hh ∧ ent.key = k := by
  intro fuel
  induction fuel with
  | zero =>
    intro i0 e i ent h
    simp [probe] at h
  | succ f ih =>
    intro i0 e i ent h
    cases hidx : d.indices i0 with
    | none => simp [probe, hidx] at h
    | some e0 =>
      cases hent : d.entries[e0]? with
      | none => simp [probe, hidx, hent] at h
      | some ent0 =>
        by_cases hmt : ent0.hash = hh ∧ ent0.key = k
        · have hfe : e0 = e ∧ i0 = i ∧ ent0 = ent := by
            simpa [probe, hidx, hent, hmt] using h
          obtain ⟨rfl, rfl, rfl⟩ := hfe
          exact ⟨hidx, hent, hmt.1, hmt.2⟩
        · have h' : probe d hh k f (nxt d.size_bits i0) = ProbeOut.found e i ent := by
            simpa [probe, hidx, hent, hmt] using h
          exact ih _ e i ent h'

lemma keyinj_of_nodup {d : dict_t} (hnd : keysNodup d) :
    ∀ (e1 e2 : Nat) (ent1 ent2 : entry_t), d.entries[e1]? = some ent1 →
      d.entries[e2]? = some ent2 → ent1.key = ent2.key → e1 = e2 := by
  intro e1 e2 ent1 ent2 h1 h2 hk
  obtain ⟨hl1, hg1⟩ := List.getElem?_eq_some.mp h1
  obtain ⟨hl2, hg2⟩ := List.getElem?_eq_some.mp h2
  have hm1 : (d.entries.map entry_t.key).get ⟨e1, by simpa using hl1⟩ = ent1.key := by
    simp only [List.get_eq_getElem, List.getElem_map]
    rw [hg1]
  have hm2 : (d.entries.map entry_t.key).get ⟨e2, by simpa using hl2⟩ = ent2.key := by
    simp only [List.get_eq_getElem, List.getElem_map]
    rw [hg2]
  have heq : (⟨e1, by simpa using hl1⟩ : Fin (d.entries.map entry_t.key).length)
      = ⟨e2, by simpa using hl2⟩ := (hnd.get_inj_iff).mp (by rw [hm1, hm2, hk])
  simpa using congrArg Fin.val heq

lemma probe_finds {d : dict_t} {hh : Nat} {k : ByteStr} {e : Nat} {ent : entry_t}
    (hsv : slotsValid d)
    (hkeyinj : ∀ (e1 e2 : Nat) (ent1 ent2 : entry_t), d.entries[e1]? = some ent1 →
      d.entries[e2]? = some ent2 → ent1.key = ent2.key → e1 = e2) :
    ∀ n fuel i0, n < fuel → i0 < DICT_SIZE d →
      (∀ m < n, (d.indices (iterN d.size_bits m i0)).isSome = true) →
      d.indices (iterN d.size_bits n i0) = some e →
      d.entries[e]? = some ent → ent.hash = hh → ent.key = k →
      ∃ i, probe d hh k fuel i0 = ProbeOut.found e i ent := by
  intro n
  induction n with
  | zero =>
    intro fuel i0 hf _ _ hend hent hhash hkey
    obtain ⟨f, rfl⟩ : ∃ f, fuel = f + 1 := ⟨fuel - 1, by omega⟩
    simp only [iterN] at hend
    exact ⟨i0, by simp [probe, hend, hent, hhash, hkey]⟩
  | succ n ih =>
    intro fuel i0 hf hi0 hpre hend hent hhash hkey
    obtain ⟨f, rfl⟩ : ∃ f, fuel = f + 1 := ⟨fuel - 1, by omega⟩
    have h0 : (d.indices i0).isSome = true := by simpa [iterN] using hpre 0 (by omega)
    obtain ⟨e0, he0⟩ := Option.isSome_iff_exists.mp h0
    have he0lt : e0 < d.entries.length := hsv i0 hi0 e0 he0
    obtain ⟨ent0, hent0⟩ : ∃ ent0, d.entries[e0]? = some ent0 :=
      ⟨d.entries[e0], List.getElem?_eq_getElem he0lt⟩
    by_cases hmt : ent0.hash = hh ∧ ent0.key = k
    · have hee : e0 = e := hkeyinj e0 e ent0 ent hent0 hent (by rw [hmt.2, hkey])
      subst hee
      have hent' : ent0 = ent := by
        rw [hent0] at hent
        exact Option.some.inj hent
      subst hent'
      exact ⟨i0, by simp [probe, he0, hent0, hmt]⟩
    · have hstep : probe d hh k (f + 1) i0 = probe d hh k f (nxt d.size_bits i0) := by
        simp [probe, he0, hent0, hmt]
      obtain ⟨i, hi⟩ := ih f (nxt d.size_bits i0) (by omega)
        (by rw [DICT_SIZE_def]; exact nxt_lt _ _)
        (fun m hmlt => by rw [iterN_shift]; exact hpre (m + 1) (by omega))
        (by rw [iterN_shift]; exact hend) hent hhash hkey
      exact ⟨i, by rw [hstep]; exact hi⟩

lemma findEmpty_some (bits : Nat) (tbl : Nat → Option Nat) :
    ∀ fuel i0, (∃ n < fuel, tbl (iterN bits n i0) = none) →
      ∃ i, findEmpty bits tbl fuel i0 = some i := by
  intro fuel
  induction fuel with
  | zero =>
    intro i0 hex
    obtain ⟨n, hn, _⟩ := hex
    omega
  | succ f ih =>
    intro i0 hex
    obtain ⟨n, hn, hnone⟩ := hex
    cases hidx : tbl i0 with
    | none => exact ⟨i0, by simp [findEmpty, hidx]⟩
    | some v =>
      have hstep : findEmpty bits tbl (f + 1) i0 = findEmpty bits tbl f (nxt bits i0) := by
        simp [findEmpty, hidx]
      rw [hstep]
      apply ih
      have hn0 : n ≠ 0 := by
        intro h0
        subst h0
        simp only [iterN] at hnone
        rw [hnone] at hidx
        exact Option.noConfusion hidx
      obtain ⟨n', rfl⟩ : ∃ n', n = n' + 1 := ⟨n - 1, by omega⟩
      refine ⟨n', by omega, ?_⟩
      rw [iterN_shift]
      exact hnone

lemma findEmpty_trace {bits : Nat} {tbl : Nat → Option Nat} :
    ∀ fuel i0 i, findEmpty bits tbl fuel i0 = some i →
      ∃ n < fuel, i = iterN bits n i0 ∧ tbl i = none ∧
        ∀ m < n, (tbl (iterN bits m i0)).isSome = true := by
  intro fuel
  induction fuel with
  | zero =>
    intro i0 i h
    simp [findEmpty] at h
  | succ f ih =>
    intro i0 i h
    cases hidx : tbl i0 with
    | none =>
      have hii : i0 = i := by simpa [findEmpty, hidx] using h
      subst hii
      exact ⟨0, by omega, by simp [iterN], hidx, by omega⟩
    | some v =>
      have h' : findEmpty bits tbl f (nxt bits i0) = some i := by
        simpa [findEmpty, hidx] using h
      obtain ⟨n, hn, hi, hnone, hpre⟩ := ih _ _ h'
      refine ⟨n + 1, by omega, by rw [← iterN_shift]; exact hi, hnone, ?_⟩
      intro m hmlt
      cases m with
      | zero => simp [iterN, hidx]
      | succ m' =>
        have hp := hpre m' (by omega)
        rw [iterN_shift] at hp
        exact hp

/- Correctness of `expand_dict`. -/

/-- Slot tables only gain occupied slots. -/
def tblMono (tbl tbl' : Nat → Option Nat) : Prop := ∀ i v, tbl i = some v → tbl' i = some v

lemma ReachS_mono {bits : Nat} {tbl tbl' : Nat → Option Nat} (hmono : tblMono tbl tbl')
    {h e : Nat} (hr : ReachS bits tbl h e) : ReachS bits tbl' h e := by
  obtain ⟨n, hn, hpre, hend⟩ := hr
  refine ⟨n, hn, ?_, hmono _ _ hend⟩
  intro m hm
  obtain ⟨v, hv⟩ := Option.isSome_iff_exists.mp (hpre m hm)
  rw [hmono _ _ hv]
  rfl

lemma reinsertAll_ok (bits : Nat) :
    ∀ (ents : List entry_t) (e0 : Nat) (tbl : Nat → Option Nat),
      (∀ i v, tbl i = some v → v < e0) →
      filled bits tbl + ents.length < 2 ^ bits →
      ∃ tbl', reinsertAll bits ents e0 tbl = some tbl' ∧
        tblMono tbl tbl' ∧
        (∀ i v, tbl' i = some v → tbl i = some v ∨ (e0 ≤ v ∧ v < e0 + ents.length)) ∧
        filled bits tbl' = filled bits tbl + ents.length ∧
        ∀ j (hj : j < ents.length), ReachS bits tbl' (ents[j].hash) (e0 + j) := by
  intro ents
  induction ents with
  | nil =>
    intro e0 tbl hv hcnt
    exact ⟨tbl, rfl, fun _ _ h => h, fun _ v h => Or.inl h, by simp,
      fun j hj => absurd hj (by simp)⟩
  | cons ent rest ih =>
    intro e0 tbl hv hcnt
    have hfl : filled bits tbl < 2 ^ bits := by
      simp only [List.length_cons] at hcnt
      omega
    obtain ⟨j0, hj0lt, hj0none⟩ := exists_empty_of_filled_lt hfl
    have hi0lt : ent.hash % 2 ^ bits < 2 ^ bits := Nat.mod_lt _ (pow2_pos bits)
    obtain ⟨n0, hn0, hiter⟩ := iterN_surj bits hi0lt hj0lt
    obtain ⟨i, hfind⟩ := findEmpty_some bits tbl (2 ^ bits)
      (ent.hash % 2 ^ bits) ⟨n0, hn0, by rw [hiter]; exact hj0none⟩
    obtain ⟨n, hnlt, hieq, hinone, hipre⟩ := findEmpty_trace _ _ _ hfind
    have hilt : i < 2 ^ bits := hieq ▸ iterN_lt bits n hi0lt
    have hmono1 : tblMono tbl (updSlot tbl i (some e0)) := by
      intro i' v h
      by_cases hii : i' = i
      · subst hii
        rw [h] at hinone
        exact Option.noConfusion hinone
      · rw [updSlot_other _ _ hii]
        exact h
    have hreach0 : ReachS bits (updSlot tbl i (some e0)) ent.hash e0 := by
      refine ⟨n, hnlt, ?_, ?_⟩
      · intro m hm
        obtain ⟨v, hv⟩ := Option.isSome_iff_exists.mp (hipre m hm)
        rw [hmono1 _ _ hv]
        rfl
      · rw [← hieq, updSlot_self]
    have hv1 : ∀ i' v, updSlot tbl i (some e0) i' = some v → v < e0 + 1 := by
      intro i' v h
      by_cases hii : i' = i
      · subst hii
        rw [updSlot_self] at h
        have hve : e0 = v := Option.some.inj h
        omega
      · rw [updSlot_other _ _ hii] at h
        have := hv _ _ h
        omega
    have hfill1 : filled bits (updSlot tbl i (some e0)) = filled bits tbl + 1 :=
      filled_updSlot hilt hinone e0
    have hcnt1 : filled bits (updSlot tbl i (some e0)) + rest.length < 2 ^ bits := by
      simp only [List.length_cons] at hcnt
      omega
    obtain ⟨tbl', hrec, hmono', hvals', hfill', hreach'⟩ := ih (e0 + 1) _ hv1 hcnt1
    refine ⟨tbl', ?_, ?_, ?_, ?_, ?_⟩
    · show reinsertAll bits (ent :: rest) e0 tbl = some tbl'
      simp only [reinsertAll, hfind]
      exact hrec
    · exact fun i' v h => hmono' _ _ (hmono1 _ _ h)
    · intro i' v h
      rcases hvals' i' v h with h1 | h2
      · by_cases hii : i' = i
        · subst hii
          rw [updSlot_self] at h1
          have hve : e0 = v := Option.some.inj h1
          right
          simp only [List.length_cons]
          omega
        · rw [updSlot_other _ _ hii] at h1
          exact Or.inl h1
      · right
        simp only [List.length_cons]
        omega
    · rw [hfill', hfill1]
      simp only [List.length_cons]
      omega
    · intro j hj
      cases j with
      | zero => simpa using ReachS_mono hmono' hreach0
      | succ j' =>
        have hj' : j' < rest.length := by
          simp only [List.length_cons] at hj
          omega
        have hr := hreach' j' hj'
        have harith : e0 + 1 + j' = e0 + (j' + 1) := by omega
        rw [harith] at hr
        simpa using hr

lemma expand_dict_ok {d : dict_t} (hcnt : d.entries.length < 2 ^ (d.size_bits + 1)) :
    ∃ d', expand_dict d = some d' ∧ d'.entries = d.entries ∧
      d'.size_bits = d.size_bits + 1 ∧ slotsValid d' ∧ reachAll d' ∧
      filled d'.size_bits d'.indices = d'.entries.length := by
  have h0 : ∀ i v, (fun _ : Nat => (none : Option Nat)) i = some v → v < 0 := by
    intro i v h
    exact Option.noConfusion h
  have hfil0 : filled (d.size_bits + 1) (fun _ => none) = 0 := by simp [filled]
  have hcnt' : filled (d.size_bits + 1) (fun _ => none) + d.entries.length
      < 2 ^ (d.size_bits + 1) := by rw [hfil0]; omega
  obtain ⟨tbl', hrec, hmono, hvals, hfill, hreach⟩ :=
    reinsertAll_ok (d.size_bits + 1) d.entries 0 _ h0 hcnt'
  refine ⟨{ entries := d.entries, indices := tbl', size_bits := d.size_bits + 1 },
    ?_, rfl, rfl, ?_, ?_, ?_⟩
  · simp only [expand_dict, hrec]
  · intro i _ e hsome
    rcases hvals i e hsome with h1 | h2
    · exact absurd h1 (by simp)
    · simpa using h2.2
  · intro e he ent hent
    have hr := hreach e he
    obtain ⟨hlt, hg⟩ := List.getElem?_eq_some.mp hent
    rw [hg] at hr
    simpa using hr
  · rw [hfill, hfil0]
    simp

/- Behaviour of `dict_add` under the invariant. -/

lemma mem_of_getElem?_some {α : Type} {l : List α} {n : Nat} {a : α} (h : l[n]? = some a) :
    a ∈ l := by
  obtain ⟨hl, hg⟩ := List.getElem?_eq_some.mp h
  exact hg ▸ List.getElem_mem hl

lemma set_getElem?_self {α : Type} {l : List α} {e : Nat} {a : α} (h : l[e]? = some a) :
    l.set e a = l := by
  apply List.ext_getElem?
  intro n
  by_cases hn : n = e
  · subst hn
    rw [List.getElem?_set_eq_of_lt _ (List.getElem?_eq_some.mp h).1]
    exact h.symm
  · exact List.getElem?_set_ne (fun he => hn he.symm)

lemma load_lt_size {d : dict_t} (hload : d.entries.length ≤ DICT_SIZE d * 2 / 3) :
    d.entries.length < 2 ^ d.size_bits := by
  have hpos : 0 < 2 ^ d.size_bits := pow2_pos _
  have h2 : DICT_SIZE d * 2 / 3 < 2 ^ d.size_bits := by
    rw [DICT_SIZE_def]
    exact (Nat.div_lt_iff_lt_mul (by omega : 0 < 3)).mpr (by omega)
  omega

lemma load_grow (s c : Nat) (hs : 3 ≤ s) (hc : c ≤ s * 2 / 3) : c + 1 ≤ s * 2 * 2 / 3 := by
  have ha : s * 2 * 2 = s * 2 + s * 2 := by ring
  have h1 : s * 2 / 3 + s * 2 / 3 ≤ (s * 2 + s * 2) / 3 := by
    rw [Nat.le_div_iff_mul_le (by omega : 0 < 3)]
    have hd : s * 2 / 3 * 3 ≤ s * 2 := Nat.div_mul_le_self _ _
    omega
  have h2 : 1 ≤ s * 2 / 3 := (Nat.one_le_div_iff (by omega : 0 < 3)).mpr (by omega)
  omega

lemma probe_absent {d : dict_t} (hsv : slotsValid d)
    (hfl : filled d.size_bits d.indices < 2 ^ d.size_bits) {k : ByteStr}
    (habs : ∀ ent ∈ d.entries, ent.key ≠ k) :
    ∃ i n, probe d (hash_key k) k (DICT_SIZE d) (hash_key k % DICT_SIZE d) = ProbeOut.empty i ∧
      n < 2 ^ d.size_bits ∧ i = iterN d.size_bits n (hash_key k % DICT_SIZE d) ∧
      d.indices i = none ∧
      ∀ m < n, (d.indices (iterN d.size_bits m (hash_key k % DICT_SIZE d))).isSome = true := by
  obtain ⟨j, hjlt, hjnone⟩ := exists_empty_of_filled_lt hfl
  have hi0 : hash_key k % DICT_SIZE d < 2 ^ d.size_bits := by
    rw [← DICT_SIZE_def]
    exact Nat.mod_lt _ (pow2_pos _)
  obtain ⟨n0, hn0, hiter⟩ := iterN_surj d.size_bits hi0 hjlt
  have hst := probe_ne_stuck (hash_key k) k hsv (DICT_SIZE d)
    (hash_key k % DICT_SIZE d) (by rw [DICT_SIZE_def]; exact hi0)
    ⟨n0, by rw [DICT_SIZE_def]; exact hn0, by rw [hiter]; exact hjnone⟩
  cases hp : probe d (hash_key k) k (DICT_SIZE d) (hash_key k % DICT_SIZE d) with
  | stuck => exact absurd hp hst
  | found e i ent =>
    obtain ⟨_, hent, _, hkey⟩ := probe_found_props _ _ _ _ _ hp
    exact absurd hkey (habs ent (mem_of_getElem?_some hent))
  | empty i =>
    obtain ⟨n, hnlt, hieq, hinone, hpre⟩ := probe_empty_trace _ _ _ hp
    refine ⟨i, n, rfl, by rw [DICT_SIZE_def] at hnlt; exact hnlt, hieq, hinone, ?_⟩
    intro m hm
    obtain ⟨e, ent, hsome, _, _⟩ := hpre m hm
    rw [hsome]
    rfl

lemma dict_add_absent {d : dict_t} (hInv : DictInv d) {k : ByteStr} (v : ByteStr)
    (habs : ∀ ent ∈ d.entries, ent.key ≠ k) :
    dict_add d k (some v) = CResult.ok (false, d) := by
  obtain ⟨hbits, hsv, hreach, hhash, hnd, hfill, hload⟩ := hInv
  have hfl : filled d.size_bits d.indices < 2 ^ d.size_bits := by
    rw [hfill]
    exact load_lt_size hload
  obtain ⟨i, n, hp, -⟩ := probe_absent hsv hfl habs
  simp [dict_add, hp]

lemma dict_find_absent {d : dict_t} (hInv : DictInv d) {k : ByteStr}
    (habs : ∀ ent ∈ d.entries, ent.key ≠ k) : dict_find d k = CResult.ok none := by
  obtain ⟨hbits, hsv, hreach, hhash, hnd, hfill, hload⟩ := hInv
  have hfl : filled d.size_bits d.indices < 2 ^ d.size_bits := by
    rw [hfill]
    exact load_lt_size hload
  obtain ⟨i, n, hp, -⟩ := probe_absent hsv hfl habs
  simp [dict_find, hp]

lemma dict_add_insert_eq {d : dict_t} {k : ByteStr} {i : Nat}
    (hp : probe d (hash_key k) k (DICT_SIZE d) (hash_key k % DICT_SIZE d) = ProbeOut.empty i) :
    dict_add d k none =
      (if (d.entries ++ [(⟨hash_key k, k, none⟩ : entry_t)]).length > DICT_SIZE d * 2 / 3 then
        match expand_dict ⟨d.entries ++ [⟨hash_key k, k, none⟩],
            updSlot d.indices i (some d.entries.length), d.size_bits⟩ with
        | none => CResult.hang
        | some d'' => CResult.ok (true, d'')
      else CResult.ok (true, ⟨d.entries ++ [⟨hash_key k, k, none⟩],
        updSlot d.indices i (some d.entries.length), d.size_bits⟩)) := by
  simp only [dict_add]
  rw [hp]
  rfl

lemma dict_add_fresh {d : dict_t} (hInv : DictInv d) {k : ByteStr}
    (hfresh : ∀ ent ∈ d.entries, ent.key ≠ k) :
    ∃ d', dict_add d k none = CResult.ok (true, d') ∧
      d'.entries = d.entries ++ [⟨hash_key k, k, none⟩] ∧ DictInv d' ∧
      (d.entries.length + 1 > DICT_SIZE d * 2 / 3 → d'.size_bits = d.size_bits + 1) ∧
      (d.entries.length + 1 ≤ DICT_SIZE d * 2 / 3 → d'.size_bits = d.size_bits) := by
  obtain ⟨hbits, hsv, hreach, hhash, hnd, hfill, hload⟩ := hInv
  have hfl : filled d.size_bits d.indices < 2 ^ d.size_bits := by
    rw [hfill]
    exact load_lt_size hload
  obtain ⟨i, n, hp, hnlt, hieq, hinone, hpre⟩ := probe_absent hsv hfl hfresh
  rw [DICT_SIZE_def] at hieq
  simp only [DICT_SIZE_def] at hpre
  have hi0 : hash_key k % DICT_SIZE d < 2 ^ d.size_bits := by
    rw [← DICT_SIZE_def]
    exact Nat.mod_lt _ (pow2_pos _)
  have hilt : i < 2 ^ d.size_bits := by
    rw [hieq]
    exact iterN_lt _ _ hi0
  have hlen : d.entries.length < 2 ^ d.size_bits := load_lt_size hload
  -- the freshly inserted state, before the growth check
  have hmono1 : tblMono d.indices (updSlot d.indices i (some d.entries.length)) := by
    intro i' v h
    by_cases hii : i' = i
    · subst hii
      rw [h] at hinone
      exact Option.noConfusion hinone
    · rw [updSlot_other _ _ hii]
      exact h
  have hsv1 : ∀ i' < 2 ^ d.size_bits, ∀ e,
      updSlot d.indices i (some d.entries.length) i' = some e →
      e < (d.entries ++ [(⟨hash_key k, k, none⟩ : entry_t)]).length := by
    intro i' hi' e hsome
    simp only [List.length_append, List.length_cons, List.length_nil]
    by_cases hii : i' = i
    · subst hii
      rw [updSlot_self] at hsome
      have : d.entries.length = e := Option.some.inj hsome
      omega
    · rw [updSlot_other _ _ hii] at hsome
      have := hsv i' hi' e hsome
      omega
  have hreach1 : ∀ e < (d.entries ++ [(⟨hash_key k, k, none⟩ : entry_t)]).length, ∀ ent,
      (d.entries ++ [(⟨hash_key k, k, none⟩ : entry_t)])[e]? = some ent →
      ReachS d.size_bits (updSlot d.indices i (some d.entries.length)) ent.hash e := by
    intro e he ent hent
    simp only [List.length_append, List.length_cons, List.length_nil] at he
    by_cases helt : e < d.entries.length
    · have hent' : d.entries[e]? = some ent := by
        rw [List.getElem?_append] at hent
        simpa [helt] using hent
      exact ReachS_mono hmono1 (hreach e helt ent hent')
    · have hee : e = d.entries.length := by omega
      subst hee
      have hent' : ent = ⟨hash_key k, k, none⟩ := by
        rw [List.getElem?_concat_length] at hent
        exact (Option.some.inj hent).symm
      subst hent'
      show ReachS d.size_bits (updSlot d.indices i (some d.entries.length)) (hash_key k)
        d.entries.length
      refine ⟨n, hnlt, ?_, ?_⟩
      · intro m hm
        obtain ⟨v, hv⟩ := Option.isSome_iff_exists.mp (hpre m hm)
        rw [hmono1 _ _ hv]
        rfl
      · rw [← hieq, updSlot_self]
  have hhash1 : ∀ ent ∈ d.entries ++ [(⟨hash_key k, k, none⟩ : entry_t)],
      ent.hash = hash_key ent.key := by
    intro ent hm
    rcases List.mem_append.mp hm with hm | hm
    · exact hhash ent hm
    · simp only [List.mem_singleton] at hm
      subst hm
      rfl
  have hnd1 : ((d.entries ++ [(⟨hash_key k, k, none⟩ : entry_t)]).map entry_t.key).Nodup := by
    simp only [List.map_append, List.map_cons, List.map_nil]
    rw [List.nodup_append]
    refine ⟨hnd, List.nodup_singleton _, ?_⟩
    intro x hx hx'
    simp only [List.mem_singleton] at hx'
    subst hx'
    obtain ⟨ent, hent, hkeq⟩ := List.mem_map.mp hx
    exact hfresh ent hent hkeq
  have hfill1 : filled d.size_bits (updSlot d.indices i (some d.entries.length))
      = (d.entries ++ [(⟨hash_key k, k, none⟩ : entry_t)]).length := by
    rw [filled_updSlot hilt hinone, hfill]
    simp
  by_cases hg : d.entries.length + 1 > DICT_SIZE d * 2 / 3
  · -- growth
    have hcond : (d.entries ++ [(⟨hash_key k, k, none⟩ : entry_t)]).length
        > DICT_SIZE d * 2 / 3 := by
      simp only [List.length_append, List.length_cons, List.length_nil]
      omega
    have hcnt : (d.entries ++ [(⟨hash_key k, k, none⟩ : entry_t)]).length
        < 2 ^ (d.size_bits + 1) := by
      simp only [List.length_append, List.length_cons, List.length_nil]
      have : (2 : Nat) ^ (d.size_bits + 1) = 2 ^ d.size_bits * 2 := by ring
      omega
    obtain ⟨d'', hexp, hents'', hbits'', hsv'', hreach'', hfill''⟩ :=
      expand_dict_ok (d := ⟨d.entries ++ [⟨hash_key k, k, none⟩],
        updSlot d.indices i (some d.entries.length), d.size_bits⟩) hcnt
    refine ⟨d'', ?_, ?_, ?_, fun _ => hbits'', fun hle => absurd hg (by omega)⟩
    · rw [dict_add_insert_eq hp, if_pos hcond, hexp]
    · rw [hents'']
    · refine ⟨?_, hsv'', hreach'', ?_, ?_, hfill'', ?_⟩
      · rw [hbits'']
        show DICT_INIT_BITS ≤ d.size_bits + 1
        omega
      · show ∀ ent ∈ d''.entries, ent.hash = hash_key ent.key
        rw [hents'']
        exact hhash1
      · show (d''.entries.map entry_t.key).Nodup
        rw [hents'']
        exact hnd1
      · show d''.entries.length ≤ DICT_SIZE d'' * 2 / 3
        rw [DICT_SIZE_def, hbits'', hents'']
        show (d.entries ++ [(⟨hash_key k, k, none⟩ : entry_t)]).length
          ≤ 2 ^ (d.size_bits + 1) * 2 / 3
        simp only [List.length_append, List.length_cons, List.length_nil]
        have hs3 : 3 ≤ 2 ^ d.size_bits :=
          le_trans (by norm_num [DICT_INIT_BITS]) (Nat.pow_le_pow_right (by omega) hbits)
        have hps : (2 : Nat) ^ (d.size_bits + 1) = 2 ^ d.size_bits * 2 := by ring
        rw [hps]
        have hlg := load_grow _ d.entries.length hs3 (by rw [DICT_SIZE_def] at hload; exact hload)
        omega
  · -- no growth
    have hcond : ¬ ((d.entries ++ [(⟨hash_key k, k, none⟩ : entry_t)]).length
        > DICT_SIZE d * 2 / 3) := by
      simp only [List.length_append, List.length_cons, List.length_nil]
      omega
    refine ⟨⟨d.entries ++ [⟨hash_key k, k, none⟩],
        updSlot d.indices i (some d.entries.length), d.size_bits⟩, ?_, rfl, ?_,
      fun hgt => absurd hgt hg, fun _ => rfl⟩
    · rw [dict_add_insert_eq hp, if_neg hcond]
    · refine ⟨hbits, hsv1, hreach1, hhash1, hnd1, hfill1, ?_⟩
      show (d.entries ++ [(⟨hash_key k, k, none⟩ : entry_t)]).length ≤ DICT_SIZE d * 2 / 3
      simp only [List.length_append, List.length_cons, List.length_nil]
      omega

lemma dict_find_of_entry {d : dict_t} (hInv : DictInv d) {e : Nat} {ent : entry_t}
    (hent : d.entries[e]? = some ent) :
    ∃ i, probe d (hash_key ent.key) ent.key (DICT_SIZE d) (hash_key ent.key % DICT_SIZE d)
      = ProbeOut.found e i ent := by
  obtain ⟨hbits, hsv, hreach, hhash, hnd, hfill, hload⟩ := hInv
  have he : e < d.entries.length := (List.getElem?_eq_some.mp hent).1
  obtain ⟨nR, hnR, hpreR, hendR⟩ := hreach e he ent hent
  have hent_hash : ent.hash = hash_key ent.key := hhash ent (mem_of_getElem?_some hent)
  rw [hent_hash] at hpreR hendR
  exact probe_finds hsv (keyinj_of_nodup hnd) nR (DICT_SIZE d) _
    (by rw [DICT_SIZE_def]; exact hnR)
    (by rw [DICT_SIZE_def]; exact Nat.mod_lt _ (pow2_pos _))
    hpreR hendR hent hent_hash rfl

lemma dict_find_present {d : dict_t} (hInv : DictInv d) {e : Nat} {ent : entry_t}
    (hent : d.entries[e]? = some ent) : dict_find d ent.key = CResult.ok (some (e, ent)) := by
  obtain ⟨i, hp⟩ := dict_find_of_entry hInv hent
  simp [dict_find, hp]

lemma dict_add_present {d : dict_t} (hInv : DictInv d) {e : Nat} {ent : entry_t}
    (hent : d.entries[e]? = some ent) (v : ByteStr) :
    dict_add d ent.key (some v)
      = CResult.ok (true, { d with entries := d.entries.set e ⟨ent.hash, ent.key, some v⟩ }) ∧
    DictInv { d with entries := d.entries.set e ⟨ent.hash, ent.key, some v⟩ } := by
  obtain ⟨i, hp⟩ := dict_find_of_entry hInv hent
  obtain ⟨hbits, hsv, hreach, hhash, hnd, hfill, hload⟩ := hInv
  have he : e < d.entries.length := (List.getElem?_eq_some.mp hent).1
  constructor
  · simp only [dict_add]
    rw [hp]
  · have hlen : (d.entries.set e ⟨ent.hash, ent.key, some v⟩).length = d.entries.length :=
      List.length_set ..
    refine ⟨hbits, ?_, ?_, ?_, ?_, ?_, ?_⟩
    · intro i' hi' e' hsome
      rw [hlen]
      exact hsv i' hi' e' hsome
    · intro e' he' ent' hent'
      rw [hlen] at he'
      by_cases hee : e' = e
      · subst hee
        have : ent' = ⟨ent.hash, ent.key, some v⟩ := by
          rw [List.getElem?_set_eq_of_lt _ he] at hent'
          exact (Option.some.inj hent').symm
        subst this
        exact hreach e' he' ent hent
      · have hent'' : d.entries[e']? = some ent' := by
          rw [List.getElem?_set_ne (fun hx => hee hx.symm)] at hent'
          exact hent'
        exact hreach e' he' ent' hent''
    · intro ent' hm
      rcases List.mem_or_eq_of_mem_set hm with hm' | hm'
      · exact hhash ent' hm'
      · subst hm'
        exact hhash ent (mem_of_getElem?_some hent)
    · show ((d.entries.set e ⟨ent.hash, ent.key, some v⟩).map entry_t.key).Nodup
      rw [List.map_set]
      have hkeq : (d.entries.map entry_t.key)[e]? = some ent.key := by
        rw [List.getElem?_map, hent]
        rfl
      rw [set_getElem?_self hkeq]
      exact hnd
    · rw [hlen]
      exact hfill
    · rw [hlen]
      exact hload

/- The freshly created dictionary satisfies the invariant. -/

lemma DictInv_new_dict : DictInv new_dict := by
  refine ⟨le_refl _, ?_, ?_, ?_, ?_, ?_, ?_⟩
  · intro i _ e h
    exact Option.noConfusion h
  · intro e he ent h
    simp [new_dict] at he
  · intro ent h
    simp [new_dict] at h
  · simp [keysNodup, new_dict]
  · simp [filled, new_dict]
  · simp [new_dict]

/- Seeding a dictionary with pairwise distinct names. -/

lemma seed_fold_ok :
    ∀ (names : List ByteStr) (d : dict_t), DictInv d →
      ((d.entries.map entry_t.key) ++ names).Nodup →
      ∃ d' : dict_t, names.foldl seed_step (CResult.ok d) = CResult.ok d' ∧
        d'.entries = d.entries ++ names.map (fun k => ⟨hash_key k, k, none⟩) ∧ DictInv d' := by
  intro names
  induction names with
  | nil =>
    intro d hInv _
    exact ⟨d, rfl, by simp, hInv⟩
  | cons k rest ih =>
    intro d hInv hnd
    have hfresh : ∀ ent ∈ d.entries, ent.key ≠ k := by
      intro ent hm hkeq
      have hkmem : ent.key ∈ d.entries.map entry_t.key := List.mem_map_of_mem _ hm
      rw [hkeq] at hkmem
      have hdisj := (List.nodup_append.mp hnd).2.2
      exact hdisj hkmem (by simp)
    obtain ⟨d1, hadd, hents1, hInv1, -, -⟩ := dict_add_fresh hInv hfresh
    have hnd1 : ((d1.entries.map entry_t.key) ++ rest).Nodup := by
      rw [hents1]
      simp only [List.map_append, List.map_cons, List.map_nil]
      rw [List.append_assoc]
      simpa using hnd
    obtain ⟨d', hfold, hents', hInv'⟩ := ih d1 hInv1 hnd1
    refine ⟨d', ?_, ?_, hInv'⟩
    · show List.foldl seed_step (CResult.ok d) (k :: rest) = CResult.ok d'
      simp only [List.foldl_cons]
      have hstep : seed_step (CResult.ok d) k = CResult.ok d1 := by
        simp [seed_step, hadd]
      rw [hstep]
      exact hfold
    · rw [hents', hents1]
      simp [List.append_assoc]

lemma seed_dict_ok {names : List ByteStr} (hnd : names.Nodup) :
    ∃ d : dict_t, seed_dict names = CResult.ok d ∧
      d.entries = names.map (fun k => ⟨hash_key k, k, none⟩) ∧ DictInv d := by
  obtain ⟨d, hfold, hents, hInv⟩ := seed_fold_ok names new_dict DictInv_new_dict
    (by simpa [new_dict] using hnd)
  exact ⟨d, hfold, by simpa [new_dict] using hents, hInv⟩

/- Buffer lemmas. -/

lemma growSize_of_le {size need : Nat} (h : need ≤ size) : growSize size need = size := by
  rw [growSize]
  simp [h]

lemma growSize_spec :
    ∀ (fuel size need : Nat), need - size ≤ fuel → 0 < size →
      need ≤ growSize size need ∧ ∃ j, growSize size need = size * 2 ^ j := by
  intro fuel
  induction fuel with
  | zero =>
    intro size need hle hpos
    have h : need ≤ size := by omega
    rw [growSize_of_le h]
    exact ⟨h, 0, by ring⟩
  | succ f ih =>
    intro size need hle hpos
    by_cases h : need ≤ size
    · rw [growSize_of_le h]
      exact ⟨h, 0, by ring⟩
    · have hcond : ¬ (need ≤ size ∨ size = 0) := by omega
      rw [growSize, dif_neg hcond]
      obtain ⟨h1, j, hj⟩ := ih (size * 2) need (by omega) (by omega)
      exact ⟨h1, j + 1, by rw [hj]; ring⟩

lemma buf_cat_cnt_le (b : buf_t) (s : ByteStr) : b.cnt ≤ (buf_cat b s).2.cnt := by
  simp [buf_cat]

lemma emit_step_cnt_le (ent : entry_t) (s : IMAGE_SYMBOL) (b : buf_t) :
    b.cnt ≤ (emit_step ent s b).2.cnt := by
  unfold emit_step
  by_cases h : (eff_name ent).length ≤ 8
  · simp [h]
  · simpa [h] using buf_cat_cnt_le b (eff_name ent)

lemma emit_step_numAux (ent : entry_t) (s : IMAGE_SYMBOL) (b : buf_t) :
    (emit_step ent s b).1.numAux = s.numAux := by
  unfold emit_step
  by_cases h : (eff_name ent).length ≤ 8
  · simp [h]
  · simp [h]

lemma emit_cnt_le :
    ∀ (es : List entry_t) (syms : List IMAGE_SYMBOL) (b : buf_t) (out : List IMAGE_SYMBOL)
      (bF : buf_t), emit es syms b = some (out, bF) → b.cnt ≤ bF.cnt := by
  intro es
  induction es with
  | nil =>
    intro syms b out bF h
    simp only [emit] at h
    have hb : b = bF := congrArg Prod.snd (Option.some.inj h)
    rw [hb]
  | cons ent es ih =>
    intro syms b out bF h
    cases syms with
    | nil => simp [emit] at h
    | cons s rest =>
      simp only [emit] at h
      cases hrec : emit es (rest.drop s.numAux) (emit_step ent s b).2 with
      | none => rw [hrec] at h; exact Option.noConfusion h
      | some p =>
        rw [hrec] at h
        obtain ⟨out', bF'⟩ := p
        have hbF : bF' = bF := congrArg Prod.snd (Option.some.inj h)
        subst hbF
        exact le_trans (emit_step_cnt_le ent s b) (ih _ _ _ _ hrec)

/- The re-emission loop walks the primary records in lockstep with the
entries, leaving auxiliary records untouched. -/

lemma emit_primaries :
    ∀ (es : List entry_t) (syms : List IMAGE_SYMBOL) (b : buf_t),
      (primaries syms).length = es.length →
      ∃ out bF, emit es syms b = some (out, bF) ∧ out.length = syms.length ∧
        (primaries out, bF) = emitPrimSpec es (primaries syms) b := by
  intro es
  induction es with
  | nil =>
    intro syms b _
    exact ⟨syms, b, rfl, rfl, rfl⟩
  | cons ent es ih =>
    intro syms b hlen
    cases syms with
    | nil =>
      rw [primaries] at hlen
      simp at hlen
    | cons s rest =>
      rw [primaries] at hlen
      simp only [List.length_cons, Nat.add_right_cancel_iff] at hlen
      obtain ⟨out', bF, hemit', hlen', hpair⟩ := ih (rest.drop s.numAux) (emit_step ent s b).2 hlen
      refine ⟨(emit_step ent s b).1 :: (rest.take s.numAux ++ out'), bF, ?_, ?_, ?_⟩
      · simp only [emit]
        rw [hemit']
      · simp only [List.length_cons, List.length_append, List.length_take]
        rw [hlen']
        simp only [List.length_drop]
        omega
      · have hL : primaries ((emit_step ent s b).1 :: (rest.take s.numAux ++ out'))
            = (emit_step ent s b).1 :: primaries ((rest.take s.numAux ++ out').drop s.numAux) := by
          rw [primaries, emit_step_numAux]
        have hR : primaries (s :: rest) = s :: primaries (rest.drop s.numAux) := by
          rw [primaries]
        rw [hL, hR]
        simp only [emitPrimSpec]
        by_cases hcase : s.numAux ≤ rest.length
        · have htk : (rest.take s.numAux).length = s.numAux := by
            rw [List.length_take]
            omega
          have hdrop : (rest.take s.numAux ++ out').drop s.numAux = out' := by
            have hdl := List.drop_left (rest.take s.numAux) out'
            rwa [htk] at hdl
          rw [hdrop, ← hpair]
        · have hre : rest.drop s.numAux = [] := List.drop_eq_nil_of_le (by omega)
          have h0 : primaries ([] : List IMAGE_SYMBOL) = [] := by rw [primaries]
          rw [hre, h0] at hlen
          have hes : es = [] := List.length_eq_zero.mp hlen.symm
          subst hes
          rw [hre] at hemit'
          simp only [emit] at hemit'
          have hout' : out' = [] := (congrArg Prod.fst (Option.some.inj hemit')).symm
          have hbF : bF = (emit_step ent s b).2 := (congrArg Prod.snd (Option.some.inj hemit')).symm
          have htake : rest.take s.numAux = rest := List.take_of_length_le (by omega)
          subst hout'
          subst hbF
          rw [htake, List.append_nil, hre, h0]
          simp only [emitPrimSpec]

/- Concrete dictionaries used to witness the claim theorems. -/

/-- A one-entry dictionary: the result of `dict_add(new_dict, "a", NULL)`
(`hash_key [97] = 130`, slot `130 mod 32 = 2`). -/
def wdict : dict_t :=
  ⟨[⟨hash_key [97], [97], none⟩], updSlot (fun _ => none) 2 (some 0), DICT_INIT_BITS⟩

/-- A dictionary holding 21 entries — exactly the load threshold
`32 * 2 / 3 = 21` of the initial table — with single-byte keys `1..21`
(`hash_key [b] = 33 + b`, so entry `e` sits in slot `e + 2`). -/
def wdict21 : dict_t :=
  ⟨(List.range 21).map (fun e => ⟨34 + e, [e + 1], none⟩),
   fun i => if 2 ≤ i ∧ i ≤ 22 then some (i - 2) else none, DICT_INIT_BITS⟩

/- Claim theorems. -/

/-- C1: during re-emission, the effective name of an entry is its value if
present, else its key; an effective name of length at most 8 is written
into the record's inline 8-byte short-name field, copied up to 8 bytes and
NUL-padded — hence with no NUL terminator when exactly 8 bytes long; a
longer effective name zeroes the short-name discriminator (long form),
appends the NUL-terminated name to the string-table buffer and stores the
returned offset (the logical length before the append) in the long-name
offset field; the inline-vs-long choice depends only on the effective
name's length, never on the record's original name encoding. -/
theorem C1_reencode (ent : entry_t) (s : IMAGE_SYMBOL) (b : buf_t) :
    eff_name ent = ent.val.getD ent.key ∧
    ((eff_name ent).length ≤ 8 →
      emit_step ent s b
        = ({ s with nameBytes := eff_name ent ++ List.replicate (8 - (eff_name ent).length) 0 },
           b)) ∧
    ((eff_name ent).length = 8 →
      emit_step ent s b = ({ s with nameBytes := eff_name ent }, b)) ∧
    (8 < (eff_name ent).length →
      emit_step ent s b = ({ s with nameBytes := le32 0 ++ le32 (buf_cat b (eff_name ent)).1 },
        (buf_cat b (eff_name ent)).2) ∧
      (buf_cat b (eff_name ent)).1 = b.cnt ∧
      (buf_cat b (eff_name ent)).2.data = b.data ++ (eff_name ent ++ [0])) ∧
    (∀ nb : List Nat, emit_step ent ⟨nb, s.numAux⟩ b
      = ({ (⟨nb, s.numAux⟩ : IMAGE_SYMBOL) with nameBytes := (emit_step ent s b).1.nameBytes },
         (emit_step ent s b).2)) := by
  refine ⟨rfl, ?_, ?_, ?_, ?_⟩
  · intro h
    unfold emit_step strncpy8
    rw [if_pos h, List.take_of_length_le h]
  · intro h
    unfold emit_step strncpy8
    rw [if_pos (le_of_eq h), List.take_of_length_le (le_of_eq h), h]
    simp
  · intro h
    refine ⟨?_, rfl, by simp [buf_cat]⟩
    unfold emit_step
    rw [if_neg (by omega)]
  · intro nb
    unfold emit_step
    by_cases h : (eff_name ent).length ≤ 8
    · rw [if_pos h]
    · rw [if_neg h]

/-- Witness for C1 at a concrete record, buffer and entries with a 2-byte
and a 9-byte effective name. -/
theorem C1_reencode_witness :
    (emit_step ⟨0, [97, 98], none⟩ ⟨List.replicate 8 1, 0⟩ new_buf
      = ({ (⟨List.replicate 8 1, 0⟩ : IMAGE_SYMBOL) with
            nameBytes := eff_name ⟨0, [97, 98], none⟩
              ++ List.replicate (8 - (eff_name ⟨0, [97, 98], none⟩).length) 0 }, new_buf)) ∧
    (emit_step ⟨0, [97, 98, 99, 100, 101, 102, 103, 104, 105], none⟩ ⟨List.replicate 8 1, 0⟩
        new_buf
      = ({ (⟨List.replicate 8 1, 0⟩ : IMAGE_SYMBOL) with
            nameBytes := le32 0 ++ le32 (buf_cat new_buf
              (eff_name ⟨0, [97, 98, 99, 100, 101, 102, 103, 104, 105], none⟩)).1 },
        (buf_cat new_buf
          (eff_name ⟨0, [97, 98, 99, 100, 101, 102, 103, 104, 105], none⟩)).2)) :=
  ⟨(C1_reencode ⟨0, [97, 98], none⟩ ⟨List.replicate 8 1, 0⟩ new_buf).2.1 (by decide),
   ((C1_reencode ⟨0, [97, 98, 99, 100, 101, 102, 103, 104, 105], none⟩ ⟨List.replicate 8 1, 0⟩
      new_buf).2.2.2.1 (by decide)).1⟩

/-- C2: for pairwise-distinct names decoded in order, seeding the
dictionary succeeds and its entries carry exactly those names in insertion
order with absent values; re-emission then succeeds and the primary records
of the output are produced by pairing entry `e` with the `e`-th primary
record of the aux-skipping traversal (the `emitPrimSpec` lockstep), so the
re-emitted record at position `i` carries the effective name of `S_i`. -/
theorem C2_order (names : List ByteStr) (hnd : names.Nodup) (syms : List IMAGE_SYMBOL)
    (b : buf_t) (hlen : (primaries syms).length = names.length) :
    ∃ d out bF, seed_dict names = CResult.ok d ∧
      d.entries.map entry_t.key = names ∧
      d.entries.length = names.length ∧
      (∀ e : Nat, d.entries[e]?.map eff_name = names[e]?) ∧
      emit d.entries syms b = some (out, bF) ∧ out.length = syms.length ∧
      (primaries out, bF) = emitPrimSpec d.entries (primaries syms) b := by
  obtain ⟨d, hseed, hents, hInv⟩ := seed_dict_ok hnd
  have hkeys : d.entries.map entry_t.key = names := by
    rw [hents, List.map_map]
    have hid : (entry_t.key ∘ fun k => (⟨hash_key k, k, none⟩ : entry_t)) = fun k => k := rfl
    rw [hid]
    exact List.map_id' names
  have hcnt : d.entries.length = names.length := by rw [hents]; simp
  have hlen2 : (primaries syms).length = d.entries.length := by rw [hcnt]; exact hlen
  obtain ⟨out, bF, hemit, hol, hpair⟩ := emit_primaries d.entries syms b hlen2
  refine ⟨d, out, bF, hseed, hkeys, hcnt, ?_, hemit, hol, hpair⟩
  intro e
  rw [hents, List.getElem?_map]
  cases hne : names[e]? with
  | none => rfl
  | some nm => rfl

/-- Witness for C2: two distinct names, a symbol array with one auxiliary
record, and the fresh string-table buffer. -/
theorem C2_order_witness :
    ∃ d out bF, seed_dict [[97], [98]] = CResult.ok d ∧
      d.entries.map entry_t.key = [[97], [98]] ∧
      d.entries.length = ([[97], [98]] : List ByteStr).length ∧
      (∀ e : Nat, d.entries[e]?.map eff_name = ([[97], [98]] : List ByteStr)[e]?) ∧
      emit d.entries [⟨List.replicate 8 65, 1⟩, ⟨List.replicate 8 9, 0⟩,
        ⟨List.replicate 8 66, 0⟩] new_buf = some (out, bF) ∧
      out.length = 3 ∧
      (primaries out, bF) = emitPrimSpec d.entries
        (primaries [⟨List.replicate 8 65, 1⟩, ⟨List.replicate 8 9, 0⟩,
          ⟨List.replicate 8 66, 0⟩]) new_buf :=
  C2_order [[97], [98]] (by decide)
    [⟨List.replicate 8 65, 1⟩, ⟨List.replicate 8 9, 0⟩, ⟨List.replicate 8 66, 0⟩]
    new_buf (by simp [primaries])

/-- C4 (code bug): inserting the same key twice with an absent value is not
a no-op. The second `dict_add(dict, key, NULL)` finds the entry and runs
`entry->val = strdup(val)` with `val = NULL`; `strdup(NULL)` returns NULL
(Windows CRT), so `check_ptr` aborts the run with the allocation-failure
message instead of leaving the dictionary unchanged. -/
theorem C4_duplicate_insert_aborts :
    ∃ d1 : dict_t, dict_add new_dict [97] none = CResult.ok (true, d1) ∧
      d1.entries = [⟨hash_key [97], [97], none⟩] ∧
      dict_add d1 [97] none = CResult.err "Memory allocation failed." := by
  refine ⟨⟨[⟨hash_key [97], [97], none⟩], updSlot (fun _ => none) 2 (some 0),
    DICT_INIT_BITS⟩, ?_, rfl, ?_⟩
  · rfl
  · rfl

/-- C5: renaming a key absent from the dictionary fails — `dict_add`
returns false without mutating the dictionary and `change_symbol_name`
aborts with a message naming the offending symbol. -/
theorem C5_rename_missing (d : dict_t) (hInv : DictInv d) (k v : ByteStr)
    (habs : ∀ ent ∈ d.entries, ent.key ≠ k) :
    dict_add d k (some v) = CResult.ok (false, d) ∧
    change_symbol_name d k v
      = CResult.err ("Cannot find symbol \x27" ++ byteStrToString k ++ "\x27.") := by
  have h1 := dict_add_absent hInv v habs
  refine ⟨h1, ?_⟩
  simp [change_symbol_name, h1]

/-- Witness for C5: looking up the absent key `"b"` in the one-entry
dictionary holding `"a"`. -/
theorem C5_rename_missing_witness :
    dict_add wdict [98] (some [99]) = CResult.ok (false, wdict) ∧
    change_symbol_name wdict [98] [99]
      = CResult.err ("Cannot find symbol \x27" ++ byteStrToString [98] ++ "\x27.") :=
  C5_rename_missing wdict (by decide) [98] [99] (by decide)

/-- C6: renaming a present key twice overwrites; after
`rename(k, v1); rename(k, v2)` the entry still sits at its position, its
stored value is `v2`, and hence its effective name is `v2`; neither rename
errors. -/
theorem C6_rename_overwrite (d : dict_t) (hInv : DictInv d) (e : Nat) (ent : entry_t)
    (hent : d.entries[e]? = some ent) (v1 v2 : ByteStr) :
    ∃ d1 d2 : dict_t,
      change_symbol_name d ent.key v1 = CResult.ok d1 ∧
      change_symbol_name d1 ent.key v2 = CResult.ok d2 ∧
      d2.entries[e]? = some ⟨ent.hash, ent.key, some v2⟩ ∧
      d2.entries[e]?.map eff_name = some v2 ∧
      d2.entries.length = d.entries.length := by
  have he : e < d.entries.length := (List.getElem?_eq_some.mp hent).1
  obtain ⟨hadd1, hInv1⟩ := dict_add_present hInv hent v1
  have hent1 : ({ d with entries := d.entries.set e ⟨ent.hash, ent.key, some v1⟩
      } : dict_t).entries[e]? = some ⟨ent.hash, ent.key, some v1⟩ := by
    show (d.entries.set e _)[e]? = _
    exact List.getElem?_set_eq_of_lt _ he
  obtain ⟨hadd2, hInv2⟩ := dict_add_present hInv1 hent1 v2
  have hadd2' : dict_add { d with entries := d.entries.set e ⟨ent.hash, ent.key, some v1⟩ }
      ent.key (some v2)
      = CResult.ok (true, { d with entries :=
          (d.entries.set e ⟨ent.hash, ent.key, some v1⟩).set e ⟨ent.hash, ent.key, some v2⟩ }) :=
    hadd2
  have he2 : e < ((d.entries.set e ⟨ent.hash, ent.key, some v1⟩) : List entry_t).length := by
    rw [List.length_set]
    exact he
  refine ⟨{ d with entries := d.entries.set e ⟨ent.hash, ent.key, some v1⟩ },
    { d with entries :=
        (d.entries.set e ⟨ent.hash, ent.key, some v1⟩).set e ⟨ent.hash, ent.key, some v2⟩ },
    ?_, ?_, ?_, ?_, ?_⟩
  · simp only [change_symbol_name, hadd1]
  · simp only [change_symbol_name, hadd2']
  · exact List.getElem?_set_eq_of_lt _ he2
  · show ((d.entries.set e ⟨ent.hash, ent.key, some v1⟩).set e
        ⟨ent.hash, ent.key, some v2⟩)[e]?.map eff_name = _
    rw [List.getElem?_set_eq_of_lt _ he2]
    rfl
  · simp

/-- Witness for C6: the one-entry dictionary, renaming `"a"` to `"d"` and
then to `"e"`. -/
theorem C6_rename_overwrite_witness :
    ∃ d1 d2 : dict_t,
      change_symbol_name wdict [97] [100] = CResult.ok d1 ∧
      change_symbol_name d1 [97] [101] = CResult.ok d2 ∧
      d2.entries[0]? = some ⟨hash_key [97], [97], some [101]⟩ ∧
      d2.entries[0]?.map eff_name = some [101] ∧
      d2.entries.length = wdict.entries.length :=
  C6_rename_overwrite wdict (by decide) 0 ⟨hash_key [97], [97], none⟩ (by decide) [100] [101]

/-- The bytes of a one-record symbol table whose primary symbol carries the
full 8-byte inline name ABCDEFGH (no NUL within the field) and whose
`Value` field is 1, followed by an empty string table (4-byte length
header with value 4). -/
def c3mem : List Nat :=
  [65, 66, 67, 68, 69, 70, 71, 72, 1, 0, 0, 0, 0, 0, 0, 0, 0, 0, 4, 0, 0, 0]

/-- C3 (code bug): decoding an inline name is not truncated at byte 8. The
code hands the bare 8-byte field pointer to `dict_add`, whose
`strlen`/`strdup`/`strcmp` reads run past the field until the first NUL
anywhere in memory; on this record the decoded key picks up the first
`Value` byte, instead of stopping after the 8 name bytes. -/
theorem C3_inline_overread :
    decode_name c3mem 1 0 = [65, 66, 67, 68, 69, 70, 71, 72, 1] ∧
    decode_name c3mem 1 0 ≠ [65, 66, 67, 68, 69, 70, 71, 72] := by
  constructor
  · decide
  · decide

/-- C7 counterexample: a newly created append buffer has logical length 0,
not 4; the four header bytes are pre-claimed one statement later, in
`main`, not by `new_buf`. -/
theorem C7_new_buf_cnt : new_buf.cnt = 0 ∧ new_buf.cnt ≠ 4 := by decide

lemma take_append_of_length {α : Type} (l1 l2 : List α) (n : Nat) (h : l1.length = n) :
    (l1 ++ l2).take n = l1 := by
  subst h
  exact List.take_left l1 l2

lemma drop_append_of_length {α : Type} (l1 l2 : List α) (n : Nat) (h : l1.length = n) :
    (l1 ++ l2).drop n = l2 := by
  subst h
  exact List.drop_left l1 l2

/-- C7 (amended): `new_buf` yields logical length 0; `main` pre-claims the
first 4 bytes (`buf->cnt = 4`) immediately after creation and before any
append, so the string-table build starts at length 4; the re-emission loop
only grows the length; and the single header write after the loop stores
the final total length little-endian into exactly the first 4 bytes,
leaving every appended byte unchanged. -/
theorem C7_strtab_header (es : List entry_t) (syms out : List IMAGE_SYMBOL) (bF : buf_t)
    (h : emit es syms strtab_init = some (out, bF)) :
    new_buf.cnt = 0 ∧ strtab_init.cnt = 4 ∧ strtab_init.data.length = 4 ∧
    4 ≤ bF.cnt ∧
    write_strtab_len bF = { bF with data := le32 bF.cnt ++ bF.data.drop 4 } ∧
    (write_strtab_len bF).data.take 4 = le32 bF.cnt ∧
    (write_strtab_len bF).data.drop 4 = bF.data.drop 4 ∧
    (write_strtab_len bF).cnt = bF.cnt := by
  refine ⟨rfl, rfl, rfl, ?_, rfl, ?_, ?_, rfl⟩
  · exact emit_cnt_le es syms strtab_init out bF h
  · exact take_append_of_length (le32 bF.cnt) (bF.data.drop 4) 4 rfl
  · exact drop_append_of_length (le32 bF.cnt) (bF.data.drop 4) 4 rfl

/-- Witness for C7 at the empty entry list: the buffer after the loop is
the pre-claimed initial buffer itself. -/
theorem C7_strtab_header_witness :
    new_buf.cnt = 0 ∧ strtab_init.cnt = 4 ∧ strtab_init.data.length = 4 ∧
    4 ≤ strtab_init.cnt ∧
    write_strtab_len strtab_init
      = { strtab_init with data := le32 strtab_init.cnt ++ strtab_init.data.drop 4 } ∧
    (write_strtab_len strtab_init).data.take 4 = le32 strtab_init.cnt ∧
    (write_strtab_len strtab_init).data.drop 4 = strtab_init.data.drop 4 ∧
    (write_strtab_len strtab_init).cnt = strtab_init.cnt :=
  C7_strtab_header [] [] [] strtab_init rfl

/-- C8: `buf_cat` returns the logical length before the call as the offset,
appends the string together with its NUL terminator at the end of the
logical content, doubles the capacity as often as needed (and not at all
when there is room), and only grows the length; the bytes at previously
returned offsets are unchanged. -/
theorem C8_buf_cat (b : buf_t) (s : ByteStr) (hdata : b.data.length = b.cnt)
    (hpos : 0 < b.size) :
    (buf_cat b s).1 = b.cnt ∧
    (buf_cat b s).2.cnt = b.cnt + (s.length + 1) ∧
    (buf_cat b s).2.data = b.data ++ (s ++ [0]) ∧
    (buf_cat b s).2.data.length = (buf_cat b s).2.cnt ∧
    b.cnt < (buf_cat b s).2.cnt ∧
    (∀ i < b.cnt, (buf_cat b s).2.data[i]? = b.data[i]?) ∧
    b.cnt + (s.length + 1) ≤ (buf_cat b s).2.size ∧
    (∃ j, (buf_cat b s).2.size = b.size * 2 ^ j) ∧
    (b.cnt + (s.length + 1) ≤ b.size → (buf_cat b s).2.size = b.size) := by
  obtain ⟨hge, j, hj⟩ := growSize_spec (b.cnt + (s.length + 1)) b.size
    (b.cnt + (s.length + 1)) (by omega) hpos
  refine ⟨rfl, rfl, by simp [buf_cat, List.append_assoc], ?_, by simp [buf_cat], ?_, hge,
    ⟨j, hj⟩, fun hle => growSize_of_le hle⟩
  · show (b.data ++ s ++ [0]).length = b.cnt + (s.length + 1)
    simp only [List.length_append, List.length_cons, List.length_nil]
    omega
  · intro i hi
    show ((b.data ++ s) ++ [0])[i]? = b.data[i]?
    rw [List.append_assoc, List.getElem?_append]
    simp only [hdata]
    rw [if_pos hi]

/-- Witness for C8: appending a one-byte string to a buffer holding two
bytes, with no growth needed. -/
theorem C8_buf_cat_witness :
    (buf_cat ⟨256, 2, [5, 6]⟩ [7]).1 = 2 ∧
    (buf_cat ⟨256, 2, [5, 6]⟩ [7]).2.cnt = 2 + (1 + 1) ∧
    (buf_cat ⟨256, 2, [5, 6]⟩ [7]).2.data = [5, 6] ++ ([7] ++ [0]) ∧
    (buf_cat ⟨256, 2, [5, 6]⟩ [7]).2.data.length = (buf_cat ⟨256, 2, [5, 6]⟩ [7]).2.cnt ∧
    2 < (buf_cat ⟨256, 2, [5, 6]⟩ [7]).2.cnt ∧
    (∀ i < 2, (buf_cat ⟨256, 2, [5, 6]⟩ [7]).2.data[i]? = ([5, 6] : List Nat)[i]?) ∧
    2 + (1 + 1) ≤ (buf_cat ⟨256, 2, [5, 6]⟩ [7]).2.size ∧
    (∃ j, (buf_cat ⟨256, 2, [5, 6]⟩ [7]).2.size = 256 * 2 ^ j) ∧
    (2 + (1 + 1) ≤ 256 → (buf_cat ⟨256, 2, [5, 6]⟩ [7]).2.size = 256) :=
  C8_buf_cat ⟨256, 2, [5, 6]⟩ [7] (by decide) (by decide)

/-- C9: the probe step `i ↦ (5*i + 1) mod 2^bits` has full period on every
power-of-two table: from any start it visits every slot exactly once within
`2^bits` steps (surjectivity and injectivity of the first `2^bits`
iterates); consequently, under the invariant — whose load bound
`count ≤ size*2/3` keeps an empty slot available — the probe loop of
`dict_add` terminates for every key, ending at a matching entry or at an
empty slot. -/
theorem C9_full_period_termination (bits srt : Nat) (hs : srt < 2 ^ bits) (d : dict_t)
    (k : ByteStr) (hInv : DictInv d) :
    (∀ j < 2 ^ bits, ∃ n < 2 ^ bits, iterN bits n srt = j) ∧
    (∀ n1 < 2 ^ bits, ∀ n2 < 2 ^ bits, iterN bits n1 srt = iterN bits n2 srt → n1 = n2) ∧
    d.entries.length ≤ DICT_SIZE d * 2 / 3 ∧
    (∃ i < DICT_SIZE d, d.indices i = none) ∧
    ((∃ e i ent, probe d (hash_key k) k (DICT_SIZE d) (hash_key k % DICT_SIZE d)
        = ProbeOut.found e i ent) ∨
      (∃ i, probe d (hash_key k) k (DICT_SIZE d) (hash_key k % DICT_SIZE d)
        = ProbeOut.empty i)) := by
  obtain ⟨hbits, hsv, hreach, hhash, hnd, hfill, hload⟩ := hInv
  have hfl : filled d.size_bits d.indices < 2 ^ d.size_bits := by
    rw [hfill]
    exact load_lt_size hload
  obtain ⟨j0, hj0, hj0none⟩ := exists_empty_of_filled_lt hfl
  refine ⟨?_, ?_, hload, ⟨j0, by rw [DICT_SIZE_def]; exact hj0, hj0none⟩, ?_⟩
  · intro j hj
    exact iterN_surj bits hs hj
  · intro n1 h1 n2 h2 heq
    exact iterN_inj bits hs h1 h2 heq
  · have hi0 : hash_key k % DICT_SIZE d < 2 ^ d.size_bits := by
      rw [← DICT_SIZE_def]
      exact Nat.mod_lt _ (pow2_pos _)
    obtain ⟨n0, hn0, hiter⟩ := iterN_surj d.size_bits hi0 hj0
    have hst := probe_ne_stuck (hash_key k) k hsv (DICT_SIZE d) _
      (by rw [DICT_SIZE_def]; exact hi0)
      ⟨n0, by rw [DICT_SIZE_def]; exact hn0, by rw [hiter]; exact hj0none⟩
    cases hp : probe d (hash_key k) k (DICT_SIZE d) (hash_key k % DICT_SIZE d) with
    | found e i ent => exact Or.inl ⟨e, i, ent, rfl⟩
    | empty i => exact Or.inr ⟨i, rfl⟩
    | stuck => exact absurd hp hst

/-- Witness for C9 at table bits 5, probe start 0, the one-entry
dictionary and the present key. -/
theorem C9_full_period_termination_witness :
    (∀ j < 2 ^ 5, ∃ n < 2 ^ 5, iterN 5 n 0 = j) ∧
    (∀ n1 < 2 ^ 5, ∀ n2 < 2 ^ 5, iterN 5 n1 0 = iterN 5 n2 0 → n1 = n2) ∧
    wdict.entries.length ≤ DICT_SIZE wdict * 2 / 3 ∧
    (∃ i < DICT_SIZE wdict, wdict.indices i = none) ∧
    ((∃ e i ent, probe wdict (hash_key [97]) [97] (DICT_SIZE wdict)
        (hash_key [97] % DICT_SIZE wdict) = ProbeOut.found e i ent) ∨
      (∃ i, probe wdict (hash_key [97]) [97] (DICT_SIZE wdict)
        (hash_key [97] % DICT_SIZE wdict) = ProbeOut.empty i)) :=
  C9_full_period_termination 5 0 (by decide) wdict [97] (by decide)

/-- C10: inserting a fresh key appends the entry; exactly when the new
count exceeds `2/3` of the table size, the table size doubles (otherwise
it is unchanged); the entries array is carried over unchanged — entries
are never copied or rehashed, and each keeps its insertion-order position —
and after the insertion (growth included) every previously inserted key is
still found by the probe lookup at its old position with its stored value. -/
theorem C10_growth (d : dict_t) (hInv : DictInv d) (k : ByteStr)
    (hfresh : ∀ ent ∈ d.entries, ent.key ≠ k) :
    ∃ d', dict_add d k none = CResult.ok (true, d') ∧
      d'.entries = d.entries ++ [⟨hash_key k, k, none⟩] ∧ DictInv d' ∧
      (d.entries.length + 1 > DICT_SIZE d * 2 / 3 → d'.size_bits = d.size_bits + 1) ∧
      (d.entries.length + 1 ≤ DICT_SIZE d * 2 / 3 → d'.size_bits = d.size_bits) ∧
      (∀ e ent, d.entries[e]? = some ent →
        d'.entries[e]? = some ent ∧ dict_find d' ent.key = CResult.ok (some (e, ent))) := by
  obtain ⟨d', hadd, hents, hInv', hgrow, hstay⟩ := dict_add_fresh hInv hfresh
  refine ⟨d', hadd, hents, hInv', hgrow, hstay, ?_⟩
  intro e ent hent
  have hlt : e < d.entries.length := (List.getElem?_eq_some.mp hent).1
  have hent' : d'.entries[e]? = some ent := by
    rw [hents, List.getElem?_append]
    simp only [hlt, if_pos]
    exact hent
  exact ⟨hent', dict_find_present hInv' hent'⟩

/-- Witness for C10 at the 21-entry dictionary sitting exactly at the load
threshold: the 22nd insertion triggers the doubling. -/
theorem C10_growth_witness :
    ∃ d', dict_add wdict21 [22] none = CResult.ok (true, d') ∧
      d'.entries = wdict21.entries ++ [⟨hash_key [22], [22], none⟩] ∧ DictInv d' ∧
      (wdict21.entries.length + 1 > DICT_SIZE wdict21 * 2 / 3 →
        d'.size_bits = wdict21.size_bits + 1) ∧
      (wdict21.entries.length + 1 ≤ DICT_SIZE wdict21 * 2 / 3 →
        d'.size_bits = wdict21.size_bits) ∧
      (∀ e ent, wdict21.entries[e]? = some ent →
        d'.entries[e]? = some ent ∧ dict_find d' ent.key = CResult.ok (some (e, ent))) :=
  C10_growth wdict21 (by decide) [22] (by decide)

end SMC
